import Mathlib

/-!
# json-stream-builder: a shallow embedding of `src/index.ts`

The library builds a JSON document incrementally: a tree of builder nodes,
each owning an output stream, a FIFO queue of child builders, a pointer to
the currently consumed child and an `endScheduled` flag
(`Builder.addChildBuilder`, `Builder.consumeChildBuilder`,
`Builder.scheduleEnd` in the source).  A child's stream is piped into its
parent's stream while the child is current; the next queued child becomes
current exactly when the previous one's stream ends; the node's own stream
ends once `endScheduled` is set and every queued child has been consumed.

The embedding below represents a builder node as an inductive tree
(`BNode`): the `children` field is the node's queue in append order (the
already-consumed prefix together with the pending suffix — consumption never
reorders).  The Node.js stream mechanics are rendered denotationally:

* `closedB n` — whether `n`'s output stream has ended.  In the source this
  happens in `consumeChildBuilder` when `endScheduled` is set and the queue
  has drained, i.e. exactly when `endScheduled` holds and every queued child
  has itself closed.
* `emitted n` — the text visible on `n`'s output stream so far: the full
  content of the prefix of closed children, plus the partial content of the
  first unclosed child (the currently piped one); later children are not yet
  consumed and contribute nothing.

Text is modelled as `List Char` (`Txt`) so that list lemmas apply directly.
Numbers carry an explicit non-finite component (`JNum`) because
`JSON.stringify` serializes non-finite numbers as `null` (ECMA-262
SerializeJSONProperty); strings use Lean's `String`.  JSON values are the
mutually inductive `JsonValue`/`JsonList`/`JsonFields` (object fields in
insertion order, as JavaScript objects enumerate string keys).
-/

/-- Stream text: a list of characters. -/
abbrev Txt := List Char

/-- A JavaScript number as far as JSON serialization distinguishes them:
either an integer (whose `ToString` matches the JSON numeric literal) or one
of the non-finite values, which `JSON.stringify` renders as `null`. -/
inductive JNum where
  | int (n : Int)
  | nan
  | inf
  | neginf

/-- Finiteness of a `JNum`. -/
def JNum.finite : JNum → Bool
  | .int _ => true
  | _ => false

/-- `JSON.stringify` on a number: decimal literal when finite, `null`
otherwise (ECMA-262 SerializeJSONProperty step for Number values). -/
def JNum.render : JNum → Txt
  | .int n => (toString n).data
  | _ => "null".data

mutual

/-- The `JsonValue` type of the source:
`null | string | number | boolean | Array<JsonValue> | { [k]: JsonValue }`. -/
inductive JsonValue where
  | null
  | jbool (b : Bool)
  | jnum (n : JNum)
  | jstr (s : String)
  | jarr (items : JsonList)
  | jobj (fields : JsonFields)

/-- A list of JSON values (array elements in order). -/
inductive JsonList where
  | nil
  | cons (hd : JsonValue) (tl : JsonList)

/-- Object members in insertion order. -/
inductive JsonFields where
  | nil
  | cons (key : String) (val : JsonValue) (tl : JsonFields)

end

/-- Lower-case hex digit for `\u00XX` escapes. -/
def hexDigit (n : Nat) : Char :=
  if n < 10 then Char.ofNat (48 + n) else Char.ofNat (87 + n)

/-- `JSON.stringify`'s QuoteJSONString escaping of one character. -/
def escChar (c : Char) : Txt :=
  if c = '"' then ['\\', '"']
  else if c = '\\' then ['\\', '\\']
  else if c = '\x08' then ['\\', 'b']
  else if c = '\x0c' then ['\\', 'f']
  else if c = '\n' then ['\\', 'n']
  else if c = '\r' then ['\\', 'r']
  else if c = '\t' then ['\\', 't']
  else if c.toNat < 32 then ['\\', 'u', '0', '0', hexDigit (c.toNat / 16), hexDigit (c.toNat % 16)]
  else [c]

/-- Escape every character of a text. -/
def escList : Txt → Txt
  | [] => []
  | c :: cs => escChar c ++ escList cs

/-- `JSON.stringify` of a string: quote and escape. -/
def jsonQuote (s : String) : Txt := '"' :: (escList s.data ++ ['"'])

mutual

/-- `JSON.stringify` on the embedded values: minimal-whitespace JSON with
`,` separators, `:` key separator and `{ } [ ]` delimiters. -/
def jsonStringify : JsonValue → Txt
  | .null => "null".data
  | .jbool true => "true".data
  | .jbool false => "false".data
  | .jnum n => n.render
  | .jstr s => jsonQuote s
  | .jarr items => '[' :: (stringifyItems items ++ [']'])
  | .jobj fields => '\x7b' :: (stringifyFields fields ++ ['\x7d'])

/-- Array elements joined by commas. -/
def stringifyItems : JsonList → Txt
  | .nil => []
  | .cons v .nil => jsonStringify v
  | .cons v (JsonList.cons w tl) =>
      jsonStringify v ++ (',' :: stringifyItems (JsonList.cons w tl))

/-- Object members `"key":value` joined by commas, keys escaped. -/
def stringifyFields : JsonFields → Txt
  | .nil => []
  | .cons k v .nil => jsonQuote k ++ (':' :: jsonStringify v)
  | .cons k v (JsonFields.cons k2 v2 tl) =>
      (jsonQuote k ++ (':' :: jsonStringify v)) ++
        (',' :: stringifyFields (JsonFields.cons k2 v2 tl))

end

/-- A key is safe when raw interpolation coincides with its escaped form:
it contains no quote, backslash or control character. -/
def keySafe (k : String) : Bool := decide (escList k.data = k.data)

mutual

/-- Every object key occurring in the value is `keySafe`. -/
def safeKeysV : JsonValue → Bool
  | .jarr items => safeKeysL items
  | .jobj fields => safeKeysF fields
  | _ => true

/-- `safeKeysV` over array elements. -/
def safeKeysL : JsonList → Bool
  | .nil => true
  | .cons v tl => safeKeysV v && safeKeysL tl

/-- `safeKeysV` over object members. -/
def safeKeysF : JsonFields → Bool
  | .nil => true
  | .cons k v tl => keySafe k && safeKeysV v && safeKeysF tl

end

/-- The kind of a builder node: `JsonStreamBuilder` (an undecided-shape
slot), `ObjectStreamBuilder` or `ArrayStreamBuilder`.  `ValueStreamBuilder`
instances appear as `BNode.leaf`. -/
inductive NodeKind where
  | dispatch
  | obj
  | arr
deriving DecidableEq

mutual

/-- A builder node.  `leaf frag` is a `ValueStreamBuilder` after `rawValue`:
its stream holds `frag` followed by end-of-stream (`push(data); push(null)`).
`comp kind endScheduled firstInserted children` is one of the composite
builders: `children` is the queue of child builders in append order
(`this.queue` together with the already-consumed prefix — consumption is
FIFO and never reorders), `endScheduled` is the flag set by `scheduleEnd`,
and `firstInserted` is `firstPropertyInserted`/`firstItemInserted`
(unused by `JsonStreamBuilder`, kept `false` there). -/
inductive BNode where
  | leaf (frag : Txt)
  | comp (kind : NodeKind) (endScheduled : Bool) (firstInserted : Bool)
      (children : BChildren)

/-- The child queue of a builder node. -/
inductive BChildren where
  | nil
  | cons (hd : BNode) (tl : BChildren)

end

namespace BChildren

/-- Queue concatenation. -/
def append : BChildren → BChildren → BChildren
  | .nil, ys => ys
  | .cons x xs, ys => .cons x (append xs ys)

instance : Append BChildren := ⟨append⟩

/-- Queue length. -/
def length : BChildren → Nat
  | .nil => 0
  | .cons _ tl => length tl + 1

/-- The `i`-th queued child, if any. -/
def childAt : BChildren → Nat → Option BNode
  | .nil, _ => none
  | .cons x _, 0 => some x
  | .cons _ tl, i + 1 => childAt tl i

/-- Apply `f` to the `i`-th queued child (identity when out of range). -/
def modifyIdx : Nat → (BNode → BNode) → BChildren → BChildren
  | _, _, .nil => .nil
  | 0, f, .cons x tl => .cons (f x) tl
  | i + 1, f, .cons x tl => .cons x (modifyIdx i f tl)

end BChildren

mutual

/-- Whether the node's output stream has ended.  In the source this happens
in `consumeChildBuilder`: once `endScheduled` is set and the queue has
drained — equivalently, `endScheduled` holds and every queued child has
closed. -/
def closedB : BNode → Bool
  | .leaf _ => true
  | .comp _ e _ cs => e && closedL cs

/-- All children closed. -/
def closedL : BChildren → Bool
  | .nil => true
  | .cons c tl => closedB c && closedL tl

end

mutual

/-- The text visible so far on the node's output stream: the concatenation
of the closed prefix of children plus the partial content of the first
unclosed child, which is the one currently piped (`this.current`); children
behind it have not been subscribed yet and contribute nothing. -/
def emitted : BNode → Txt
  | .leaf s => s
  | .comp _ _ _ cs => emitL cs

/-- Stream content contributed by a child queue. -/
def emitL : BChildren → Txt
  | .nil => []
  | .cons c tl => if closedB c then emitted c ++ emitL tl else emitted c

end

/-! ## The builder methods (`src/index.ts`)

Each public/protected method of the source becomes a function on `BNode`.
Stream plumbing (`consumeChildBuilder`, `pipe`, `on('end')`) has no
synchronous effect on the queue itself; its observable outcome is captured
by `closedB`/`emitted` above, so the methods below only perform the queue
and flag mutations the source performs. -/

/-- `Builder.addChildBuilder`: no-op once `endScheduled` is set, otherwise
push the child at the tail of the queue. -/
def Builder.addChildBuilder (child : BNode) : BNode → BNode
  | .leaf s => .leaf s
  | .comp k true fi cs => .comp k true fi cs
  | .comp k false fi cs => .comp k false fi (cs ++ BChildren.cons child BChildren.nil)

/-- `Builder.scheduleEnd`: set `endScheduled` (idempotent). -/
def Builder.scheduleEnd : BNode → BNode
  | .leaf s => .leaf s
  | .comp k _ fi cs => .comp k true fi cs

/-- `ValueStreamBuilder.rawValue`: push the pre-rendered text and end the
stream (`push(data); push(null)`). -/
def ValueStreamBuilder.rawValue (frag : Txt) : BNode := .leaf frag

/-- `ValueStreamBuilder.value`: `rawValue(JSON.stringify(data))`. -/
def ValueStreamBuilder.value (v : JsonValue) : BNode :=
  ValueStreamBuilder.rawValue (jsonStringify v)

/-- `createBuilder()`: a fresh `JsonStreamBuilder` (no children, not ended). -/
def JsonStreamBuilder.fresh : BNode := .comp .dispatch false false .nil

/-- `JsonStreamBuilder.value` (private): append a `ValueStreamBuilder`
holding the one-shot serialization, then `scheduleEnd`. -/
def JsonStreamBuilder.value (v : JsonValue) (t : BNode) : BNode :=
  Builder.scheduleEnd (Builder.addChildBuilder (ValueStreamBuilder.value v) t)

/-- `JsonStreamBuilder.primitive`: `this.value(data).end()`; the trailing
`end()` is `scheduleEnd` again (and returns the parent context). -/
def JsonStreamBuilder.primitive (v : JsonValue) (t : BNode) : BNode :=
  Builder.scheduleEnd (JsonStreamBuilder.value v t)

/-- `ObjectStreamBuilder` constructor: fresh node whose first queued child
is the opening `{` fragment. -/
def ObjectStreamBuilder.fresh : BNode :=
  Builder.addChildBuilder (ValueStreamBuilder.rawValue ['\x7b'])
    (.comp .obj false false .nil)

/-- `ArrayStreamBuilder` constructor: fresh node whose first queued child is
the opening `[` fragment. -/
def ArrayStreamBuilder.fresh : BNode :=
  Builder.addChildBuilder (ValueStreamBuilder.rawValue ['['])
    (.comp .arr false false .nil)

/-- `JsonStreamBuilder.object()` (open-ended overload): create a fresh
`ObjectStreamBuilder` (with the dispatch node's parent as its parent),
append it, `scheduleEnd`, and hand the new builder to the caller. -/
def JsonStreamBuilder.objectOpenEnded (t : BNode) : BNode :=
  Builder.scheduleEnd (Builder.addChildBuilder ObjectStreamBuilder.fresh t)

/-- `JsonStreamBuilder.object(data)` (one-shot overload): `this.value(data)`. -/
def JsonStreamBuilder.objectOneShot (fields : JsonFields) (t : BNode) : BNode :=
  JsonStreamBuilder.value (.jobj fields) t

/-- `JsonStreamBuilder.array()` (open-ended overload). -/
def JsonStreamBuilder.arrayOpenEnded (t : BNode) : BNode :=
  Builder.scheduleEnd (Builder.addChildBuilder ArrayStreamBuilder.fresh t)

/-- `JsonStreamBuilder.array(data)` (one-shot overload): `this.value(data)`. -/
def JsonStreamBuilder.arrayOneShot (items : JsonList) (t : BNode) : BNode :=
  JsonStreamBuilder.value (.jarr items) t

/-- `JsonStreamBuilder.end()`: `scheduleEnd` (and returns the parent). -/
def JsonStreamBuilder.endCall (t : BNode) : BNode :=
  Builder.scheduleEnd t

/-- `ObjectStreamBuilder.insertCommaIfNeeded`: on the first member just flip
the flag; afterwards append a `,` fragment. -/
def ObjectStreamBuilder.insertCommaIfNeeded : BNode → BNode
  | .leaf s => .leaf s
  | .comp k e false cs => .comp k e true cs
  | .comp k e true cs =>
      Builder.addChildBuilder (ValueStreamBuilder.rawValue [',']) (.comp k e true cs)

/-- The raw key prefix fragment of `pushProperty`/`addProperty`: the
template literal interpolates the key verbatim between quotes, with no JSON
escaping. -/
def ObjectStreamBuilder.keyFrag (key : String) : Txt :=
  '"' :: (key.data ++ ['"', ':'])

/-- `ObjectStreamBuilder.pushProperty`: separator handling, then one
fragment holding the raw key prefix followed by the serialized value. -/
def ObjectStreamBuilder.pushProperty (key : String) (v : JsonValue) (t : BNode) : BNode :=
  Builder.addChildBuilder
    (ValueStreamBuilder.rawValue (ObjectStreamBuilder.keyFrag key ++ jsonStringify v))
    (ObjectStreamBuilder.insertCommaIfNeeded t)

/-- An optional JavaScript argument: an omitted argument is `undefined`,
and so is an explicitly passed `undefined`. -/
inductive JsOpt where
  | undef
  | val (v : JsonValue)

/-- `ObjectStreamBuilder.addProperty(key, value?)`: the implementation tests
`value !== undefined`; with a value it delegates to `pushProperty`,
otherwise it emits the separator and key prefix and appends a fresh
`JsonStreamBuilder` (returned to the caller). -/
def ObjectStreamBuilder.addProperty (key : String) (value : JsOpt) (t : BNode) : BNode :=
  match value with
  | .val v => ObjectStreamBuilder.pushProperty key v t
  | .undef =>
      Builder.addChildBuilder JsonStreamBuilder.fresh
        (Builder.addChildBuilder (ValueStreamBuilder.rawValue (ObjectStreamBuilder.keyFrag key))
          (ObjectStreamBuilder.insertCommaIfNeeded t))

/-- The no-value overload `addProperty(key)` as documented: separator, raw
key prefix, then a fresh child `JsonStreamBuilder` for the caller. -/
def ObjectStreamBuilder.addPropertyOpenEnded (key : String) (t : BNode) : BNode :=
  Builder.addChildBuilder JsonStreamBuilder.fresh
    (Builder.addChildBuilder (ValueStreamBuilder.rawValue (ObjectStreamBuilder.keyFrag key))
      (ObjectStreamBuilder.insertCommaIfNeeded t))

/-- `ObjectStreamBuilder.end()`: append the closing `}` fragment, then
`scheduleEnd` (and return the parent). -/
def ObjectStreamBuilder.endCall (t : BNode) : BNode :=
  Builder.scheduleEnd (Builder.addChildBuilder (ValueStreamBuilder.rawValue ['\x7d']) t)

/-- `ArrayStreamBuilder.insertCommaIfNeeded` (textually identical to the
object version, duplicated in the source). -/
def ArrayStreamBuilder.insertCommaIfNeeded : BNode → BNode
  | .leaf s => .leaf s
  | .comp k e false cs => .comp k e true cs
  | .comp k e true cs =>
      Builder.addChildBuilder (ValueStreamBuilder.rawValue [',']) (.comp k e true cs)

/-- `ArrayStreamBuilder.pushItem`: separator handling, then one fragment
holding the serialized value. -/
def ArrayStreamBuilder.pushItem (v : JsonValue) (t : BNode) : BNode :=
  Builder.addChildBuilder (ValueStreamBuilder.value v)
    (ArrayStreamBuilder.insertCommaIfNeeded t)

/-- `ArrayStreamBuilder.addItem(value?)`: tests `value !== undefined`; with
a value delegates to `pushItem`, otherwise emits the separator and appends a
fresh `JsonStreamBuilder` (returned to the caller). -/
def ArrayStreamBuilder.addItem (value : JsOpt) (t : BNode) : BNode :=
  match value with
  | .val v => ArrayStreamBuilder.pushItem v t
  | .undef =>
      Builder.addChildBuilder JsonStreamBuilder.fresh
        (ArrayStreamBuilder.insertCommaIfNeeded t)

/-- The no-value overload `addItem()` as documented. -/
def ArrayStreamBuilder.addItemOpenEnded (t : BNode) : BNode :=
  Builder.addChildBuilder JsonStreamBuilder.fresh
    (ArrayStreamBuilder.insertCommaIfNeeded t)

/-- `ArrayStreamBuilder.end()`: append the closing `]` fragment, then
`scheduleEnd`. -/
def ArrayStreamBuilder.endCall (t : BNode) : BNode :=
  Builder.scheduleEnd (Builder.addChildBuilder (ValueStreamBuilder.rawValue [']']) t)

/-- Modelled from the spec: `addProperties(map)` applies the inline form
`addProperty(key, value)` once per entry in iteration order and returns the
same context.  The method is exercised by the repository's tests but its
implementation is not among the provided sources. -/
def ObjectStreamBuilder.addProperties : JsonFields → BNode → BNode
  | .nil, t => t
  | .cons k v tl, t =>
      ObjectStreamBuilder.addProperties tl (ObjectStreamBuilder.pushProperty k v t)

/-- Modelled from the spec: `addItems(seq)` applies the inline form
`addItem(value)` once per entry in order and returns the same context.  The
method is exercised by the repository's tests but its implementation is not
among the provided sources. -/
def ArrayStreamBuilder.addItems : JsonList → BNode → BNode
  | .nil, t => t
  | .cons v tl, t => ArrayStreamBuilder.addItems tl (ArrayStreamBuilder.pushItem v t)

/-! ## Executions: events, paths and interleavings

A caller holds references to several live builders of one document and may
call them in any interleaved order.  An execution is a list of events, each
naming the node it targets by its path from the root (the position in the
child queues, which is stable because queues only ever grow at the tail) and
the method called.  `runOp` dispatches a method to the node it reaches: a
method of the wrong class, or an event addressing a node that does not
exist, leaves the tree unchanged — well-formed executions (`okTrace`) never
do the latter. -/

/-- A method call on some builder. -/
inductive BOp where
  | dPrimitive (v : JsonValue)
  | dObjectOpen
  | dObjectData (fields : JsonFields)
  | dArrayOpen
  | dArrayData (items : JsonList)
  | dEnd
  | oAddProp (key : String) (value : JsOpt)
  | oAddProps (fields : JsonFields)
  | oEnd
  | aAddItem (value : JsOpt)
  | aAddItems (items : JsonList)
  | aEnd

/-- Run one method call on the node it targets.  Calls are matched to the
class of the receiver; a mismatched call does nothing. -/
def runOp (o : BOp) (t : BNode) : BNode :=
  match t with
  | .leaf s => .leaf s
  | .comp k e fi cs =>
    match k, o with
    | .dispatch, .dPrimitive v => JsonStreamBuilder.primitive v (.comp k e fi cs)
    | .dispatch, .dObjectOpen => JsonStreamBuilder.objectOpenEnded (.comp k e fi cs)
    | .dispatch, .dObjectData fields => JsonStreamBuilder.objectOneShot fields (.comp k e fi cs)
    | .dispatch, .dArrayOpen => JsonStreamBuilder.arrayOpenEnded (.comp k e fi cs)
    | .dispatch, .dArrayData items => JsonStreamBuilder.arrayOneShot items (.comp k e fi cs)
    | .dispatch, .dEnd => JsonStreamBuilder.endCall (.comp k e fi cs)
    | .obj, .oAddProp key value => ObjectStreamBuilder.addProperty key value (.comp k e fi cs)
    | .obj, .oAddProps fields => ObjectStreamBuilder.addProperties fields (.comp k e fi cs)
    | .obj, .oEnd => ObjectStreamBuilder.endCall (.comp k e fi cs)
    | .arr, .aAddItem value => ArrayStreamBuilder.addItem value (.comp k e fi cs)
    | .arr, .aAddItems items => ArrayStreamBuilder.addItems items (.comp k e fi cs)
    | .arr, .aEnd => ArrayStreamBuilder.endCall (.comp k e fi cs)
    | _, _ => .comp k e fi cs

/-- Resolve a path (a list of child-queue indices) to a node. -/
def getNode : List Nat → BNode → Option BNode
  | [], t => some t
  | _ :: _, .leaf _ => none
  | i :: p, .comp _ _ _ cs => (cs.childAt i).bind (getNode p)

/-- Apply a function to the node at a path (identity when the path does not
resolve). -/
def applyAt : List Nat → (BNode → BNode) → BNode → BNode
  | [], f, t => f t
  | _ :: _, _, .leaf s => .leaf s
  | i :: p, f, .comp k e fi cs => .comp k e fi (BChildren.modifyIdx i (applyAt p f) cs)

/-- An event of an execution: a method call on the node at `path`. -/
structure Ev where
  path : List Nat
  op : BOp

/-- Apply one event. -/
def applyEv (t : BNode) (e : Ev) : BNode := applyAt e.path (runOp e.op) t

/-- Run an execution from a state. -/
def applyTrace (t : BNode) (es : List Ev) : BNode := es.foldl applyEv t

/-- An event is addressed to an existing node. -/
def okEv (t : BNode) (e : Ev) : Bool := (getNode e.path t).isSome

/-- Every event of the execution addresses a node that exists when the
event fires (a caller can only invoke methods on builders it was handed). -/
def okTrace : BNode → List Ev → Bool
  | _, [] => true
  | t, e :: es => okEv t e && okTrace (applyEv t e) es

/-- The subsequence of an execution seen by one node. -/
def proj (p : List Nat) (es : List Ev) : List Ev :=
  es.filter (fun e => decide (e.path = p))

/-! ## The current child and the pending queue

`consumeChildBuilder` dequeues as soon as the previous child's stream ends,
so at any quiescent moment the child being piped (`this.current`) is the
first queued child whose stream has not yet ended, and `this.queue` holds
exactly the children behind it. -/

/-- The currently piped child: the first queued child not yet closed. -/
def activeChild : BChildren → Option BNode
  | .nil => none
  | .cons c tl => if closedB c then activeChild tl else some c

/-- The children still waiting behind the current one (`this.queue`). -/
def pendingQueue : BChildren → BChildren
  | .nil => .nil
  | .cons c tl => if closedB c then pendingQueue tl else tl

/-! ## The collector (`toJson`): JSON.parse on the emitted grammar

`toJson` drains a stream and runs `JSON.parse` on the concatenation.  The
parser below models `JSON.parse` on the whitespace-free grammar the builder
emits: `null`/`true`/`false`, integer literals (no leading zeros), strings
with the standard escapes, arrays and objects.  It is fuelled by the input
length; parsing fails by returning `none`. -/

/-- Decimal digit test. -/
def isDigit (c : Char) : Bool := 48 ≤ c.toNat && c.toNat ≤ 57

/-- Split leading decimal digits. -/
def takeDigits : List Char → (List Char × List Char)
  | [] => ([], [])
  | c :: rest =>
      if isDigit c then
        let (ds, r) := takeDigits rest
        (c :: ds, r)
      else ([], c :: rest)

/-- Digits to a natural number. -/
def digitsToNat (ds : List Char) : Nat :=
  ds.foldl (fun acc c => 10 * acc + (c.toNat - 48)) 0

/-- Parse an unsigned JSON integer (at least one digit, no leading zero). -/
def parsePosInt (s : List Char) : Option (Nat × List Char) :=
  match takeDigits s with
  | ([], _) => none
  | ([d], r) => some (digitsToNat [d], r)
  | (d :: ds, r) => if d = '0' then none else some (digitsToNat (d :: ds), r)

/-- Parse a JSON number literal (integers only, as the builder emits). -/
def parseNum (s : List Char) : Option (JsonValue × List Char) :=
  match s with
  | '-' :: r =>
      (parsePosInt r).map (fun p => (.jnum (.int (-(p.1 : Int))), p.2))
  | _ => (parsePosInt s).map (fun p => (.jnum (.int (p.1 : Int)), p.2))

/-- Value of a hex digit, if any. -/
def hexVal (c : Char) : Option Nat :=
  if 48 ≤ c.toNat && c.toNat ≤ 57 then some (c.toNat - 48)
  else if 97 ≤ c.toNat && c.toNat ≤ 102 then some (c.toNat - 87)
  else if 65 ≤ c.toNat && c.toNat ≤ 70 then some (c.toNat - 55)
  else none

/-- Parse the body of a JSON string (after the opening quote), returning the
decoded characters and the rest after the closing quote. -/
def parseStringChars : Nat → List Char → Option (List Char × List Char)
  | 0, _ => none
  | _ + 1, [] => none
  | fuel + 1, c :: rest =>
      if c = '"' then some ([], rest)
      else if c = '\\' then
        match rest with
        | [] => none
        | e :: rest2 =>
            if e = '"' then (parseStringChars fuel rest2).map (fun p => ('"' :: p.1, p.2))
            else if e = '\\' then (parseStringChars fuel rest2).map (fun p => ('\\' :: p.1, p.2))
            else if e = '/' then (parseStringChars fuel rest2).map (fun p => ('/' :: p.1, p.2))
            else if e = 'b' then (parseStringChars fuel rest2).map (fun p => ('\x08' :: p.1, p.2))
            else if e = 'f' then (parseStringChars fuel rest2).map (fun p => ('\x0c' :: p.1, p.2))
            else if e = 'n' then (parseStringChars fuel rest2).map (fun p => ('\n' :: p.1, p.2))
            else if e = 'r' then (parseStringChars fuel rest2).map (fun p => ('\r' :: p.1, p.2))
            else if e = 't' then (parseStringChars fuel rest2).map (fun p => ('\t' :: p.1, p.2))
            else if e = 'u' then
              match rest2 with
              | h1 :: h2 :: h3 :: h4 :: rest3 =>
                  match hexVal h1, hexVal h2, hexVal h3, hexVal h4 with
                  | some a, some b, some c2, some d =>
                      let n := ((a * 16 + b) * 16 + c2) * 16 + d
                      if _h : n < 1114112 ∧ ¬(55296 ≤ n ∧ n < 57344) then
                        (parseStringChars fuel rest3).map
                          (fun p => (Char.ofNat n :: p.1, p.2))
                      else none
                  | _, _, _, _ => none
              | _ => none
            else none
      else (parseStringChars fuel rest).map (fun p => (c :: p.1, p.2))

mutual

/-- Parse one JSON value. -/
def parseVal : Nat → List Char → Option (JsonValue × List Char)
  | 0, _ => none
  | fuel + 1, s =>
      match s with
      | 'n' :: 'u' :: 'l' :: 'l' :: r => some (.null, r)
      | 't' :: 'r' :: 'u' :: 'e' :: r => some (.jbool true, r)
      | 'f' :: 'a' :: 'l' :: 's' :: 'e' :: r => some (.jbool false, r)
      | '"' :: r => (parseStringChars fuel r).map (fun p => (.jstr (String.mk p.1), p.2))
      | '[' :: ']' :: r => some (.jarr .nil, r)
      | '[' :: r => (parseItems fuel r).map (fun p => (.jarr p.1, p.2))
      | '\x7b' :: '\x7d' :: r => some (.jobj .nil, r)
      | '\x7b' :: r => (parseFields fuel r).map (fun p => (.jobj p.1, p.2))
      | _ => parseNum s

/-- Parse one or more comma-separated items up to the closing bracket. -/
def parseItems : Nat → List Char → Option (JsonList × List Char)
  | 0, _ => none
  | fuel + 1, s =>
      match parseVal fuel s with
      | none => none
      | some (v, r) =>
          match r with
          | ',' :: r2 => (parseItems fuel r2).map (fun p => (.cons v p.1, p.2))
          | ']' :: r2 => some (.cons v .nil, r2)
          | _ => none

/-- Parse one or more `"key":value` members up to the closing brace. -/
def parseFields : Nat → List Char → Option (JsonFields × List Char)
  | 0, _ => none
  | fuel + 1, s =>
      match s with
      | '"' :: r =>
          match parseStringChars fuel r with
          | none => none
          | some (kcs, r2) =>
              match r2 with
              | ':' :: r3 =>
                  match parseVal fuel r3 with
                  | none => none
                  | some (v, r4) =>
                      match r4 with
                      | ',' :: r5 =>
                          (parseFields fuel r5).map
                            (fun p => (.cons (String.mk kcs) v p.1, p.2))
                      | '\x7d' :: r5 => some (.cons (String.mk kcs) v .nil, r5)
                      | _ => none
              | _ => none
      | _ => none

end

/-- `JSON.parse` on a whole text: one value consuming all input. -/
def jsonParse (t : Txt) : Option JsonValue :=
  match parseVal (t.length + 2) t with
  | some (v, []) => some v
  | _ => none

/-! ## Decompositions of a one-shot build

The repository's property test (`walkAndRecreateUsingBuilder`) rebuilds a
value member by member, choosing per member between the inline form
(`addItem(value)` / `addProperty(key, value)`) and recursing through a fresh
open-ended child context.  `Choice` is that decision tree; `walkV` is the
walker's net effect on the undecided-shape node it populates, composed from
the same builder methods the test calls.  Attaching the fully populated
child is equivalent to attaching it first and populating it afterwards
because queue appends on a node never inspect the children already queued
(`Shaped`), which is the order-invariance established separately. -/

/-- A decomposition plan: serialize this slot in one shot, or open a nested
context and decide again per member (missing entries default to inline). -/
inductive Choice where
  | inline
  | deep (cs : List Choice)

mutual

/-- The walker's effect on the undecided-shape node of one slot: atoms go
through `primitive`; aggregates either one-shot (`object(data)`/
`array(data)`) or open a child aggregate, add the members one by one and
`end()` it. -/
def walkV : JsonValue → Choice → BNode → BNode
  | .null, _, d => JsonStreamBuilder.primitive .null d
  | .jbool b, _, d => JsonStreamBuilder.primitive (.jbool b) d
  | .jnum n, _, d => JsonStreamBuilder.primitive (.jnum n) d
  | .jstr s, _, d => JsonStreamBuilder.primitive (.jstr s) d
  | .jarr items, .inline, d => JsonStreamBuilder.arrayOneShot items d
  | .jarr items, .deep ds, d =>
      Builder.scheduleEnd (Builder.addChildBuilder
        (ArrayStreamBuilder.endCall (walkItems items ds ArrayStreamBuilder.fresh)) d)
  | .jobj fields, .inline, d => JsonStreamBuilder.objectOneShot fields d
  | .jobj fields, .deep ds, d =>
      Builder.scheduleEnd (Builder.addChildBuilder
        (ObjectStreamBuilder.endCall (walkFields fields ds ObjectStreamBuilder.fresh)) d)

/-- Add the array elements in order, each either inline (`pushItem`) or via
an open-ended `addItem()` child populated by the walker. -/
def walkItems : JsonList → List Choice → BNode → BNode
  | .nil, _, a => a
  | .cons v tl, [], a => walkItems tl [] (ArrayStreamBuilder.pushItem v a)
  | .cons v tl, Choice.inline :: crest, a =>
      walkItems tl crest (ArrayStreamBuilder.pushItem v a)
  | .cons v tl, Choice.deep ds :: crest, a =>
      walkItems tl crest
        (Builder.addChildBuilder (walkV v (Choice.deep ds) JsonStreamBuilder.fresh)
          (ArrayStreamBuilder.insertCommaIfNeeded a))

/-- Add the object members in order, each either inline (`pushProperty`) or
via an open-ended `addProperty(key)` child populated by the walker. -/
def walkFields : JsonFields → List Choice → BNode → BNode
  | .nil, _, a => a
  | .cons k v tl, [], a => walkFields tl [] (ObjectStreamBuilder.pushProperty k v a)
  | .cons k v tl, Choice.inline :: crest, a =>
      walkFields tl crest (ObjectStreamBuilder.pushProperty k v a)
  | .cons k v tl, Choice.deep ds :: crest, a =>
      walkFields tl crest
        (Builder.addChildBuilder (walkV v (Choice.deep ds) JsonStreamBuilder.fresh)
          (Builder.addChildBuilder
            (ValueStreamBuilder.rawValue (ObjectStreamBuilder.keyFrag k))
            (ObjectStreamBuilder.insertCommaIfNeeded a)))

end

/-- The fully one-shot construction of a value at the root. -/
def oneShotBuild (v : JsonValue) : BNode :=
  JsonStreamBuilder.value v JsonStreamBuilder.fresh

/-- The decomposed construction of a value at the root. -/
def walkBuild (v : JsonValue) (c : Choice) : BNode :=
  walkV v c JsonStreamBuilder.fresh

/-- Member texts of an array after the first: `,` then the literal. -/
def itemsTail : JsonList → Txt
  | .nil => []
  | .cons v tl => ',' :: (jsonStringify v ++ itemsTail tl)

/-- Member texts of an array including the first (no leading comma). -/
def itemsHead : JsonList → Txt
  | .nil => []
  | .cons v tl => jsonStringify v ++ itemsTail tl

/-- Member texts of an object after the first, keys interpolated raw. -/
def fieldsTail : JsonFields → Txt
  | .nil => []
  | .cons k v tl =>
      ',' :: (ObjectStreamBuilder.keyFrag k ++ (jsonStringify v ++ fieldsTail tl))

/-- Member texts of an object including the first, keys interpolated raw. -/
def fieldsHead : JsonFields → Txt
  | .nil => []
  | .cons k v tl => ObjectStreamBuilder.keyFrag k ++ (jsonStringify v ++ fieldsTail tl)

/-! ## Context handles

A context as held by a caller: the path of its node and the path its
`parent` field designates (`none` for the root's parent `null`).  Methods
that hand back an existing context return it unchanged; `end()` and
`primitive` return the parent; the open-ended forms return the freshly
appended child, which sits at the tail of the queue. -/

/-- A caller-held reference to a live builder. -/
structure Handle where
  path : List Nat
  parentPath : Option (List Nat)

/-- Number of queued children. -/
def childCount : BNode → Nat
  | .leaf _ => 0
  | .comp _ _ _ cs => cs.length

/-- `primitive` returns `this.parent` (via `end()`). -/
def JsonStreamBuilder.primitiveRet (h : Handle) : Option (List Nat) := h.parentPath

/-- `addProperties` returns `this` (spec-modelled with the bulk form). -/
def ObjectStreamBuilder.addPropertiesRet (h : Handle) : Handle := h

/-- `addItems` returns `this` (spec-modelled with the bulk form). -/
def ArrayStreamBuilder.addItemsRet (h : Handle) : Handle := h

/-- The no-value `addProperty` returns the fresh child builder, queued last:
its path is the tail position of the updated queue, its parent the object. -/
def ObjectStreamBuilder.addPropertyRetOpen (key : String) (h : Handle) (t : BNode) : Handle :=
  ⟨h.path ++ [childCount (ObjectStreamBuilder.addProperty key .undef t) - 1], some h.path⟩

/-- The no-value `addItem` returns the fresh child builder, queued last. -/
def ArrayStreamBuilder.addItemRetOpen (h : Handle) (t : BNode) : Handle :=
  ⟨h.path ++ [childCount (ArrayStreamBuilder.addItem .undef t) - 1], some h.path⟩

/-- The queue of a node (`nil` for leaves). -/
def childrenOf : BNode → BChildren
  | .leaf _ => .nil
  | .comp _ _ _ cs => cs

/-- The queue of the node at a path (`nil` when the path misses). -/
def childrenAt (p : List Nat) (t : BNode) : BChildren :=
  match getNode p t with
  | some (.comp _ _ _ cs) => cs
  | _ => .nil

/-! ## Concrete executions used as evidence -/

/-- `object().addProperty('a',1).addProperty('b',2).end()` as an execution
from the root. -/
def exampleTrace : List Ev :=
  [⟨[], .dObjectOpen⟩,
   ⟨[0], .oAddProp "a" (.val (.jnum (.int 1)))⟩,
   ⟨[0], .oAddProp "b" (.val (.jnum (.int 2)))⟩,
   ⟨[0], .oEnd⟩]

/-- The bulk-form test of the repository: two inline properties, an empty
bulk call, a two-entry bulk call, one more inline property, then `end()`. -/
def bulkTrace : List Ev :=
  [⟨[], .dObjectOpen⟩,
   ⟨[0], .oAddProp "foo" (.val .null)⟩,
   ⟨[0], .oAddProp "bar" (.val (.jnum (.int 42)))⟩,
   ⟨[0], .oAddProps .nil⟩,
   ⟨[0], .oAddProps (.cons "x" (.jstr "a") (.cons "y" (.jstr "b") .nil))⟩,
   ⟨[0], .oAddProp "baz" (.val (.jobj (.cons "a" (.jnum (.int 1)) .nil)))⟩,
   ⟨[0], .oEnd⟩]

/-- Open the root object and two open-ended properties: the first property's
child context is the object's third queued child (after `{` and the key). -/
def twoSlotPrefix : List Ev :=
  [⟨[], .dObjectOpen⟩,
   ⟨[0], .oAddProp "a" .undef⟩,
   ⟨[0], .oAddProp "b" .undef⟩]

/-- Resolve the first open slot with a primitive. -/
def fillFirstSlot : Ev := ⟨[0, 2], .dPrimitive (.jnum (.int 1))⟩

/-- Fill a sibling property inline on the object. -/
def fillSibling : Ev := ⟨[0], .oAddProp "c" (.val (.jnum (.int 2)))⟩

/-- The two-slot state. -/
def twoSlotState : BNode := applyTrace JsonStreamBuilder.fresh twoSlotPrefix

/-- One interleaving: resolve the open slot, then add the sibling. -/
def interleaveA : List Ev := twoSlotPrefix ++ [fillFirstSlot, fillSibling]

/-- The other interleaving: sibling first, open slot afterwards. -/
def interleaveB : List Ev := twoSlotPrefix ++ [fillSibling, fillFirstSlot]

/-- An object whose only key is one double-quote character. -/
def quoteKeyValue : JsonValue := .jobj (.cons "\"" (.jnum (.int 1)) .nil)

/-- Decompose the object open-endedly, its one member inline. -/
def quoteKeyChoice : Choice := .deep [.inline]

/-! ## Queue lemmas

`BChildren` is mutually inductive with `BNode`, so the lemmas below recurse
structurally instead of using the `induction` tactic. -/

namespace BChildren

theorem nil_append (ys : BChildren) : BChildren.nil ++ ys = ys := rfl

theorem cons_append (x : BNode) (xs ys : BChildren) :
    BChildren.cons x xs ++ ys = BChildren.cons x (xs ++ ys) := rfl

theorem append_eq (xs ys : BChildren) : BChildren.append xs ys = xs ++ ys := rfl

theorem modifyIdx_nil (i : Nat) (f : BNode → BNode) :
    modifyIdx i f BChildren.nil = BChildren.nil := by cases i <;> rfl

theorem childAt_nil (i : Nat) : BChildren.nil.childAt i = none := rfl

theorem append_nil : ∀ xs : BChildren, xs ++ BChildren.nil = xs
  | .nil => rfl
  | .cons x tl => by rw [cons_append, append_nil tl]

theorem append_assoc : ∀ xs ys zs : BChildren, (xs ++ ys) ++ zs = xs ++ (ys ++ zs)
  | .nil, _, _ => rfl
  | .cons x tl, ys, zs => by
      rw [cons_append, cons_append, cons_append, append_assoc tl]

theorem childAt_lt_length : ∀ {cs : BChildren} {i : Nat} {c : BNode},
    cs.childAt i = some c → i < cs.length
  | .nil, i, c, h => by simp [childAt] at h
  | .cons x tl, 0, c, _ => by simp [length]
  | .cons x tl, i + 1, c, h => by
      have := childAt_lt_length (show tl.childAt i = some c by simpa [childAt] using h)
      simp [length]; omega

theorem childAt_append_left : ∀ {cs : BChildren} {i : Nat} {c : BNode},
    cs.childAt i = some c → ∀ ys : BChildren, (cs ++ ys).childAt i = some c
  | .nil, i, c, h, _ => by simp [childAt] at h
  | .cons x tl, 0, c, h, ys => by simpa [cons_append, childAt] using h
  | .cons x tl, i + 1, c, h, ys => by
      rw [cons_append]
      simpa [childAt] using childAt_append_left (by simpa [childAt] using h) ys

theorem modifyIdx_append_left : ∀ {cs : BChildren} {i : Nat}, i < cs.length →
    ∀ (f : BNode → BNode) (ys : BChildren),
      modifyIdx i f (cs ++ ys) = modifyIdx i f cs ++ ys
  | .nil, i, h, _, _ => by simp [length] at h
  | .cons x tl, 0, _, f, ys => by simp [cons_append, modifyIdx, append_eq]
  | .cons x tl, i + 1, h, f, ys => by
      have hj : i < tl.length := by simpa [length] using h
      simp [cons_append, modifyIdx, append_eq, modifyIdx_append_left hj f ys]

theorem modifyIdx_comm : ∀ {i j : Nat}, i ≠ j → ∀ (f g : BNode → BNode) (cs : BChildren),
    modifyIdx i f (modifyIdx j g cs) = modifyIdx j g (modifyIdx i f cs)
  | _, _, _, _, _, .nil => by simp [modifyIdx_nil]
  | 0, 0, hij, _, _, .cons _ _ => absurd rfl hij
  | 0, j + 1, _, f, g, .cons x tl => by simp [modifyIdx]
  | i + 1, 0, _, f, g, .cons x tl => by simp [modifyIdx]
  | i + 1, j + 1, hij, f, g, .cons x tl => by
      have h : i ≠ j := by omega
      simp [modifyIdx, modifyIdx_comm h f g tl]

theorem modifyIdx_modifyIdx : ∀ (i : Nat) (f g : BNode → BNode) (cs : BChildren),
    modifyIdx i f (modifyIdx i g cs) = modifyIdx i (fun x => f (g x)) cs
  | _, _, _, .nil => by simp [modifyIdx_nil]
  | 0, f, g, .cons x tl => by simp [modifyIdx]
  | i + 1, f, g, .cons x tl => by simp [modifyIdx, modifyIdx_modifyIdx i f g tl]

theorem modifyIdx_congr : ∀ {cs : BChildren} {i : Nat} {c : BNode},
    cs.childAt i = some c → ∀ {f g : BNode → BNode}, f c = g c →
      modifyIdx i f cs = modifyIdx i g cs
  | .nil, i, c, h, _, _, _ => by simp [childAt] at h
  | .cons x tl, 0, c, h, f, g, hfg => by
      simp [childAt] at h
      subst h
      simp [modifyIdx, hfg]
  | .cons x tl, i + 1, c, h, f, g, hfg => by
      simp [childAt] at h
      simp [modifyIdx, modifyIdx_congr h hfg]

theorem childAt_modifyIdx_self : ∀ (i : Nat) (f : BNode → BNode) (cs : BChildren),
    (modifyIdx i f cs).childAt i = (cs.childAt i).map f
  | _, _, .nil => by simp [modifyIdx_nil, childAt_nil]
  | 0, f, .cons x tl => by simp [modifyIdx, childAt]
  | i + 1, f, .cons x tl => by simp [modifyIdx, childAt, childAt_modifyIdx_self i f tl]

theorem childAt_modifyIdx_ne : ∀ {i j : Nat}, i ≠ j → ∀ (f : BNode → BNode) (cs : BChildren),
    (modifyIdx j f cs).childAt i = cs.childAt i
  | _, _, _, _, .nil => by simp [modifyIdx_nil]
  | 0, 0, hij, _, _ => absurd rfl hij
  | i + 1, 0, _, f, .cons x tl => by simp [modifyIdx, childAt]
  | 0, j + 1, _, f, .cons x tl => by simp [modifyIdx, childAt]
  | i + 1, j + 1, hij, f, .cons x tl => by
      have h : i ≠ j := by omega
      simp [modifyIdx, childAt, childAt_modifyIdx_ne h f tl]

end BChildren

/-! ## Every method is a local queue extension

Each builder method reads only its receiver's flags and appends children at
the tail of its receiver's queue; it never inspects or rewrites children
already queued.  `Shaped` captures this: on a composite node the result is
the same node with possibly updated flags and some suffix appended, where
flags and suffix depend only on the previous flags (and the node's class),
not on the queue.  This is what makes calls on distinct nodes commute. -/

/-- A function on builder nodes that leaves leaves alone and, on a composite
node, only updates flags and appends a queue suffix determined by the
previous flags and kind. -/
def Shaped (f : BNode → BNode) : Prop :=
  (∀ s, f (.leaf s) = .leaf s) ∧
  ∀ k e fi, ∃ e' fi' a, ∀ cs, f (.comp k e fi cs) = .comp k e' fi' (cs ++ a)

theorem shaped_id : Shaped (fun t => t) := by
  refine ⟨fun s => rfl, fun k e fi => ⟨e, fi, .nil, fun cs => ?_⟩⟩
  rw [BChildren.append_nil]

theorem shaped_comp {f g : BNode → BNode} (hf : Shaped f) (hg : Shaped g) :
    Shaped (fun t => g (f t)) := by
  refine ⟨fun s => ?_, fun k e fi => ?_⟩
  · show g (f (.leaf s)) = .leaf s
    rw [hf.1, hg.1]
  · obtain ⟨e1, fi1, a1, h1⟩ := hf.2 k e fi
    obtain ⟨e2, fi2, a2, h2⟩ := hg.2 k e1 fi1
    refine ⟨e2, fi2, a1 ++ a2, fun cs => ?_⟩
    show g (f (.comp k e fi cs)) = _
    rw [h1, h2, BChildren.append_assoc]

theorem shaped_addChildBuilder (c : BNode) : Shaped (Builder.addChildBuilder c) := by
  refine ⟨fun s => rfl, fun k e fi => ?_⟩
  cases e with
  | true => exact ⟨true, fi, .nil, fun cs => by
      rw [BChildren.append_nil]; rfl⟩
  | false => exact ⟨false, fi, .cons c .nil, fun cs => rfl⟩

theorem shaped_scheduleEnd : Shaped Builder.scheduleEnd := by
  refine ⟨fun s => rfl, fun k e fi => ⟨true, fi, .nil, fun cs => ?_⟩⟩
  rw [BChildren.append_nil]; rfl

theorem shaped_obj_insertComma : Shaped ObjectStreamBuilder.insertCommaIfNeeded := by
  refine ⟨fun s => rfl, fun k e fi => ?_⟩
  cases fi with
  | false => exact ⟨e, true, .nil, fun cs => by rw [BChildren.append_nil]; rfl⟩
  | true =>
    cases e with
    | true => exact ⟨true, true, .nil, fun cs => by rw [BChildren.append_nil]; rfl⟩
    | false => exact ⟨false, true, .cons (ValueStreamBuilder.rawValue [',']) .nil,
        fun cs => rfl⟩

theorem shaped_arr_insertComma : Shaped ArrayStreamBuilder.insertCommaIfNeeded := by
  refine ⟨fun s => rfl, fun k e fi => ?_⟩
  cases fi with
  | false => exact ⟨e, true, .nil, fun cs => by rw [BChildren.append_nil]; rfl⟩
  | true =>
    cases e with
    | true => exact ⟨true, true, .nil, fun cs => by rw [BChildren.append_nil]; rfl⟩
    | false => exact ⟨false, true, .cons (ValueStreamBuilder.rawValue [',']) .nil,
        fun cs => rfl⟩

theorem shaped_dispatch_value (v : JsonValue) : Shaped (JsonStreamBuilder.value v) := by
  have h := shaped_comp (shaped_addChildBuilder (ValueStreamBuilder.value v)) shaped_scheduleEnd
  exact h

theorem shaped_primitive (v : JsonValue) : Shaped (JsonStreamBuilder.primitive v) := by
  have h := shaped_comp (shaped_dispatch_value v) shaped_scheduleEnd
  exact h

theorem shaped_objectOpenEnded : Shaped JsonStreamBuilder.objectOpenEnded := by
  have h := shaped_comp (shaped_addChildBuilder ObjectStreamBuilder.fresh) shaped_scheduleEnd
  exact h

theorem shaped_arrayOpenEnded : Shaped JsonStreamBuilder.arrayOpenEnded := by
  have h := shaped_comp (shaped_addChildBuilder ArrayStreamBuilder.fresh) shaped_scheduleEnd
  exact h

theorem shaped_pushProperty (k : String) (v : JsonValue) :
    Shaped (ObjectStreamBuilder.pushProperty k v) := by
  have h := shaped_comp shaped_obj_insertComma
    (shaped_addChildBuilder
      (ValueStreamBuilder.rawValue (ObjectStreamBuilder.keyFrag k ++ jsonStringify v)))
  exact h

theorem shaped_addProperty (k : String) (a : JsOpt) :
    Shaped (ObjectStreamBuilder.addProperty k a) := by
  cases a with
  | val v => exact shaped_pushProperty k v
  | undef =>
    have h := shaped_comp
      (shaped_comp shaped_obj_insertComma
        (shaped_addChildBuilder (ValueStreamBuilder.rawValue (ObjectStreamBuilder.keyFrag k))))
      (shaped_addChildBuilder JsonStreamBuilder.fresh)
    exact h

theorem shaped_obj_endCall : Shaped ObjectStreamBuilder.endCall := by
  have h := shaped_comp (shaped_addChildBuilder (ValueStreamBuilder.rawValue ['\x7d']))
    shaped_scheduleEnd
  exact h

theorem shaped_pushItem (v : JsonValue) : Shaped (ArrayStreamBuilder.pushItem v) := by
  have h := shaped_comp shaped_arr_insertComma
    (shaped_addChildBuilder (ValueStreamBuilder.value v))
  exact h

theorem shaped_addItem (a : JsOpt) : Shaped (ArrayStreamBuilder.addItem a) := by
  cases a with
  | val v => exact shaped_pushItem v
  | undef =>
    have h := shaped_comp shaped_arr_insertComma
      (shaped_addChildBuilder JsonStreamBuilder.fresh)
    exact h

theorem shaped_arr_endCall : Shaped ArrayStreamBuilder.endCall := by
  have h := shaped_comp (shaped_addChildBuilder (ValueStreamBuilder.rawValue [']']))
    shaped_scheduleEnd
  exact h

theorem shaped_addProperties : ∀ fs : JsonFields, Shaped (ObjectStreamBuilder.addProperties fs)
  | .nil => shaped_id
  | .cons k v tl => by
      have h := shaped_comp (shaped_pushProperty k v) (shaped_addProperties tl)
      exact h

theorem shaped_addItems : ∀ vs : JsonList, Shaped (ArrayStreamBuilder.addItems vs)
  | .nil => shaped_id
  | .cons v tl => by
      have h := shaped_comp (shaped_pushItem v) (shaped_addItems tl)
      exact h

theorem shaped_runOp (o : BOp) : Shaped (runOp o) := by
  constructor
  · intro s; rfl
  · intro k e fi
    cases k <;> cases o
    all_goals first
      | exact (shaped_primitive _).2 _ _ _
      | exact shaped_objectOpenEnded.2 _ _ _
      | exact (shaped_dispatch_value _).2 _ _ _
      | exact shaped_arrayOpenEnded.2 _ _ _
      | exact shaped_scheduleEnd.2 _ _ _
      | exact (shaped_addProperty _ _).2 _ _ _
      | exact (shaped_addProperties _).2 _ _ _
      | exact shaped_obj_endCall.2 _ _ _
      | exact (shaped_addItem _).2 _ _ _
      | exact (shaped_addItems _).2 _ _ _
      | exact shaped_arr_endCall.2 _ _ _
      | exact shaped_id.2 _ _ _

/-! ## Calls on distinct nodes commute -/

theorem getNode_shaped {f : BNode → BNode} (hf : Shaped f) :
    ∀ (r : List Nat) (t : BNode) {n : BNode}, getNode r t = some n →
      ∃ n', getNode r (f t) = some n'
  | [], t, n, _ => ⟨f t, rfl⟩
  | i :: r, .leaf _, n, h => by simp [getNode] at h
  | i :: r, .comp k e fi cs, n, h => by
      obtain ⟨e', fi', a, ha⟩ := hf.2 k e fi
      rw [ha]
      simp only [getNode] at h ⊢
      obtain ⟨c, hc, hrec⟩ := Option.bind_eq_some.mp h
      rw [BChildren.childAt_append_left hc]
      exact ⟨n, by simpa using hrec⟩

/-- Applying a shaped function somewhere never removes nodes: any path that
resolved before still resolves. -/
theorem getNode_applyAt_shaped {f : BNode → BNode} (hf : Shaped f) :
    ∀ (p : List Nat) (r : List Nat) (t : BNode) {n : BNode}, getNode r t = some n →
      ∃ n', getNode r (applyAt p f t) = some n'
  | [], r, t, n, h => getNode_shaped hf r t h
  | _ :: _, r, .leaf s, n, h => ⟨n, h⟩
  | i :: p, [], .comp k e fi cs, n, _ => ⟨_, rfl⟩
  | i :: p, j :: r, .comp k e fi cs, n, h => by
      simp only [getNode, applyAt] at h ⊢
      obtain ⟨c, hc, hrec⟩ := Option.bind_eq_some.mp h
      by_cases hij : j = i
      · subst hij
        rw [BChildren.childAt_modifyIdx_self, hc]
        obtain ⟨n', hn'⟩ := getNode_applyAt_shaped hf p r c hrec
        exact ⟨n', by simpa using hn'⟩
      · rw [BChildren.childAt_modifyIdx_ne hij, hc]
        exact ⟨n, by simpa using hrec⟩

theorem applyAt_comm {f g : BNode → BNode} (hf : Shaped f) (hg : Shaped g) :
    ∀ (p q : List Nat), p ≠ q → ∀ (t : BNode) {np nq : BNode},
      getNode p t = some np → getNode q t = some nq →
      applyAt q g (applyAt p f t) = applyAt p f (applyAt q g t)
  | [], [], hpq, _, _, _, _, _ => absurd rfl hpq
  | [], j :: q, _, .leaf s, np, nq, _, hq => by simp [getNode] at hq
  | [], j :: q, _, .comp k e fi cs, np, nq, _, hq => by
      obtain ⟨c, hc, _⟩ := Option.bind_eq_some.mp (by simpa [getNode] using hq)
      obtain ⟨e', fi', a, ha⟩ := hf.2 k e fi
      show applyAt (j :: q) g (f _) = f (applyAt (j :: q) g _)
      rw [ha]
      simp only [applyAt]
      rw [ha, BChildren.modifyIdx_append_left (BChildren.childAt_lt_length hc)]
  | i :: p, [], _, .leaf s, np, nq, hp, _ => by simp [getNode] at hp
  | i :: p, [], _, .comp k e fi cs, np, nq, hp, _ => by
      obtain ⟨c, hc, _⟩ := Option.bind_eq_some.mp (by simpa [getNode] using hp)
      obtain ⟨e', fi', a, ha⟩ := hg.2 k e fi
      show g (applyAt (i :: p) f _) = applyAt (i :: p) f (g _)
      rw [ha]
      simp only [applyAt]
      rw [ha, BChildren.modifyIdx_append_left (BChildren.childAt_lt_length hc)]
  | i :: p, j :: q, hpq, .leaf s, np, nq, hp, _ => by simp [getNode] at hp
  | i :: p, j :: q, hpq, .comp k e fi cs, np, nq, hp, hq => by
      simp only [applyAt]
      by_cases hij : i = j
      · subst hij
        have hpq' : p ≠ q := by
          intro h; exact hpq (by rw [h])
        obtain ⟨c, hc, hrecp⟩ := Option.bind_eq_some.mp (by simpa [getNode] using hp)
        obtain ⟨c', hc', hrecq⟩ := Option.bind_eq_some.mp (by simpa [getNode] using hq)
        rw [hc] at hc'
        cases hc'
        rw [BChildren.modifyIdx_modifyIdx, BChildren.modifyIdx_modifyIdx]
        exact congrArg _ (BChildren.modifyIdx_congr hc
          (applyAt_comm hf hg p q hpq' c hrecp hrecq))
      · rw [BChildren.modifyIdx_comm (fun h => hij h.symm)]

/-! ## Program order determines the result

Two well-formed executions that give every node the same call sequence — in
the node's own order — produce identical trees, hence identical collected
text, whatever the interleaving across nodes. -/

theorem okEv_applyEv {t : BNode} {y : Ev} (hy : okEv t y = true) (e : Ev) :
    okEv (applyEv t e) y = true := by
  unfold okEv at hy ⊢
  obtain ⟨n, hn⟩ := Option.isSome_iff_exists.mp hy
  obtain ⟨n', hn'⟩ := getNode_applyAt_shaped (shaped_runOp e.op) e.path y.path t hn
  exact Option.isSome_iff_exists.mpr ⟨n', hn'⟩

theorem applyEv_comm {t : BNode} {y e : Ev} (hpath : y.path ≠ e.path)
    (hy : okEv t y = true) (he : okEv t e = true) :
    applyEv (applyEv t y) e = applyEv (applyEv t e) y := by
  obtain ⟨ny, hny⟩ := Option.isSome_iff_exists.mp hy
  obtain ⟨ne', hne⟩ := Option.isSome_iff_exists.mp he
  exact applyAt_comm (shaped_runOp y.op) (shaped_runOp e.op) y.path e.path hpath t hny hne

theorem okTrace_cons (t : BNode) (e : Ev) (es : List Ev) :
    okTrace t (e :: es) = (okEv t e && okTrace (applyEv t e) es) := rfl

theorem applyTrace_cons (t : BNode) (e : Ev) (es : List Ev) :
    applyTrace t (e :: es) = applyTrace (applyEv t e) es := rfl

/-- An event valid at the start and not sharing a node with a prefix `u` can
be pulled in front of `u` without changing the final state, staying
well-formed. -/
theorem pull_front : ∀ (u : List Ev) {s : BNode} {e : Ev} {v : List Ev},
    okTrace s (u ++ e :: v) = true → okEv s e = true →
    (∀ y ∈ u, y.path ≠ e.path) →
    applyTrace s (u ++ e :: v) = applyTrace (applyEv s e) (u ++ v) ∧
      okTrace (applyEv s e) (u ++ v) = true
  | [], s, e, v, hok, _, _ => by
      refine ⟨rfl, ?_⟩
      rw [List.nil_append] at hok ⊢
      rw [okTrace_cons, Bool.and_eq_true] at hok
      exact hok.2
  | y :: u, s, e, v, hok, he, hne => by
      rw [List.cons_append, okTrace_cons, Bool.and_eq_true] at hok
      have hyne : y.path ≠ e.path := hne y (List.mem_cons_self y u)
      have he' : okEv (applyEv s y) e = true := okEv_applyEv he y
      have ih := pull_front u hok.2 he' (fun z hz => hne z (List.mem_cons_of_mem y hz))
      have hswap : applyEv (applyEv s y) e = applyEv (applyEv s e) y :=
        applyEv_comm hyne hok.1 he
      constructor
      · rw [List.cons_append, applyTrace_cons, ih.1, hswap, List.cons_append,
          applyTrace_cons]
      · rw [List.cons_append, okTrace_cons, Bool.and_eq_true]
        refine ⟨okEv_applyEv hok.1 e, ?_⟩
        rw [← hswap]
        exact ih.2

theorem filter_eq_cons_split {P : Ev → Bool} : ∀ {l : List Ev} {x : Ev} {r : List Ev},
    l.filter P = x :: r → ∃ u v, l = u ++ x :: v ∧ (∀ y ∈ u, P y = false) ∧ v.filter P = r := by
  intro l
  induction l with
  | nil => intro x r h; simp at h
  | cons a l ih =>
    intro x r h
    by_cases ha : P a = true
    · rw [List.filter_cons_of_pos ha] at h
      injection h with hx hr
      subst hx
      exact ⟨[], l, rfl, by simp, hr⟩
    · rw [List.filter_cons_of_neg ha] at h
      obtain ⟨u, v, rfl, hu, hv⟩ := ih h
      refine ⟨a :: u, v, rfl, ?_, hv⟩
      intro y hy
      rcases List.mem_cons.mp hy with rfl | hy'
      · exact Bool.not_eq_true _ ▸ ha
      · exact hu y hy'

theorem proj_nil_of_all_nil : ∀ {t2 : List Ev}, (∀ p, proj p t2 = []) → t2 = []
  | [], _ => rfl
  | e :: t2, h => by
      have := h e.path
      simp [proj, List.filter_cons] at this

/-- Determinism over interleavings: two well-formed executions from the same
state whose per-node projections agree end in the same tree. -/
theorem trace_det : ∀ (t1 : List Ev) (t2 : List Ev) (s : BNode),
    okTrace s t1 = true → okTrace s t2 = true →
    (∀ p, proj p t1 = proj p t2) → applyTrace s t1 = applyTrace s t2
  | [], t2, s, _, _, hproj => by
      rw [proj_nil_of_all_nil (fun p => (hproj p).symm)]
  | e :: t1, t2, s, hok1, hok2, hproj => by
      have hhead : t2.filter (fun y => decide (y.path = e.path)) = e :: proj e.path t1 := by
        have h := (hproj e.path).symm
        simp only [proj, List.filter_cons, decide_eq_true_eq] at h ⊢
        simpa using h
      obtain ⟨u, v, rfl, hu, hv⟩ := filter_eq_cons_split hhead
      rw [okTrace_cons, Bool.and_eq_true] at hok1
      have hune : ∀ y ∈ u, y.path ≠ e.path := by
        intro y hy hcon
        have := hu y hy
        simp [hcon] at this
      have hpull := pull_front u hok2 hok1.1 hune
      have hproj' : ∀ p, proj p t1 = proj p (u ++ v) := by
        intro p
        by_cases hp : p = e.path
        · have hu0 : proj p u = [] := by
            refine List.filter_eq_nil_iff.mpr ?_
            intro y hy
            simp only [decide_eq_true_eq]
            rw [hp]
            exact hune y hy
          simp only [proj, List.filter_append] at hv hu0 ⊢
          rw [hu0, List.nil_append]
          rw [hp] at hu0 ⊢
          exact hv.symm
        · have hne : (decide (e.path = p)) = false :=
            decide_eq_false (fun hcon => hp hcon.symm)
          have h2 := hproj p
          simp only [proj, List.filter_append, List.filter_cons, hne, cond_false] at h2 ⊢
          exact h2
      rw [applyTrace_cons, hpull.1]
      exact trace_det t1 (u ++ v) (applyEv s e) hok1.2 hpull.2 hproj'

/-! ## Channel semantics: helper lemmas -/

theorem closedL_childAt : ∀ {cs : BChildren}, closedL cs = true →
    ∀ {i : Nat} {c : BNode}, cs.childAt i = some c → closedB c = true
  | .nil, _, i, c, hc => by simp [BChildren.childAt] at hc
  | .cons x tl, h, 0, c, hc => by
      rw [show closedL (.cons x tl) = (closedB x && closedL tl) from rfl,
        Bool.and_eq_true] at h
      simp [BChildren.childAt] at hc
      subst hc
      exact h.1
  | .cons x tl, h, i + 1, c, hc => by
      rw [show closedL (.cons x tl) = (closedB x && closedL tl) from rfl,
        Bool.and_eq_true] at h
      exact closedL_childAt h.2 (by simpa [BChildren.childAt] using hc)

theorem childAt_isSome_of_lt : ∀ {cs : BChildren} {i : Nat} {c : BNode},
    cs.childAt i = some c → ∀ {j : Nat}, j < i → ∃ c', cs.childAt j = some c'
  | .nil, i, c, hc, _, _ => by simp [BChildren.childAt] at hc
  | .cons x tl, 0, c, _, j, hj => by omega
  | .cons x tl, i + 1, c, hc, 0, _ => ⟨x, rfl⟩
  | .cons x tl, i + 1, c, hc, j + 1, hj => by
      simpa [BChildren.childAt] using
        childAt_isSome_of_lt (by simpa [BChildren.childAt] using hc) (by omega)

theorem closedL_append : ∀ xs ys : BChildren,
    closedL (xs ++ ys) = (closedL xs && closedL ys)
  | .nil, ys => rfl
  | .cons x tl, ys => by
      rw [BChildren.cons_append]
      show (closedB x && closedL (tl ++ ys)) = ((closedB x && closedL tl) && closedL ys)
      rw [closedL_append tl ys, Bool.and_assoc]

theorem emitL_append_closed : ∀ {xs : BChildren}, closedL xs = true →
    ∀ ys : BChildren, emitL (xs ++ ys) = emitL xs ++ emitL ys
  | .nil, _, ys => rfl
  | .cons x tl, h, ys => by
      rw [show closedL (.cons x tl) = (closedB x && closedL tl) from rfl,
        Bool.and_eq_true] at h
      rw [BChildren.cons_append]
      show (if closedB x then emitted x ++ emitL (tl ++ ys) else emitted x) = _
      rw [h.1]
      show emitted x ++ emitL (tl ++ ys) = emitL (.cons x tl) ++ emitL ys
      rw [emitL_append_closed h.2 ys]
      show _ = (if closedB x then emitted x ++ emitL tl else emitted x) ++ emitL ys
      rw [h.1]
      simp [List.append_assoc]

theorem emitL_append_open : ∀ {xs : BChildren}, closedL xs = false →
    ∀ ys : BChildren, emitL (xs ++ ys) = emitL xs
  | .nil, h, _ => by simp [closedL] at h
  | .cons x tl, h, ys => by
      rw [show closedL (.cons x tl) = (closedB x && closedL tl) from rfl] at h
      rw [BChildren.cons_append]
      show (if closedB x then emitted x ++ emitL (tl ++ ys) else emitted x) =
        (if closedB x then emitted x ++ emitL tl else emitted x)
      cases hx : closedB x with
      | false => simp
      | true =>
        rw [hx, Bool.true_and] at h
        simp [emitL_append_open h ys]

/-! ## After `end()` every call is inert

Once `endScheduled` is set, `addChildBuilder` refuses to queue, so every
method leaves the queue untouched; only the `firstInserted` flag may still
flip (inside `insertCommaIfNeeded`), which has no observable effect on the
channel. -/

theorem addProperties_ended : ∀ (fs : JsonFields) (k : NodeKind) (fi : Bool) (cs : BChildren),
    ∃ fi', ObjectStreamBuilder.addProperties fs (.comp k true fi cs) = .comp k true fi' cs
  | .nil, k, fi, cs => ⟨fi, rfl⟩
  | .cons key v tl, k, fi, cs => by
      have step : ObjectStreamBuilder.pushProperty key v (.comp k true fi cs) =
          .comp k true true cs := by
        cases fi <;> rfl
      rw [show ObjectStreamBuilder.addProperties (.cons key v tl) (.comp k true fi cs) =
        ObjectStreamBuilder.addProperties tl
          (ObjectStreamBuilder.pushProperty key v (.comp k true fi cs)) from rfl, step]
      exact addProperties_ended tl k true cs

theorem addItems_ended : ∀ (vs : JsonList) (k : NodeKind) (fi : Bool) (cs : BChildren),
    ∃ fi', ArrayStreamBuilder.addItems vs (.comp k true fi cs) = .comp k true fi' cs
  | .nil, k, fi, cs => ⟨fi, rfl⟩
  | .cons v tl, k, fi, cs => by
      have step : ArrayStreamBuilder.pushItem v (.comp k true fi cs) =
          .comp k true true cs := by
        cases fi <;> rfl
      rw [show ArrayStreamBuilder.addItems (.cons v tl) (.comp k true fi cs) =
        ArrayStreamBuilder.addItems tl
          (ArrayStreamBuilder.pushItem v (.comp k true fi cs)) from rfl, step]
      exact addItems_ended tl k true cs

theorem addProperty_ended (key : String) (value : JsOpt) (k : NodeKind) (fi : Bool)
    (cs : BChildren) :
    ObjectStreamBuilder.addProperty key value (.comp k true fi cs) = .comp k true true cs := by
  cases value <;> cases fi <;> rfl

theorem addItem_ended (value : JsOpt) (k : NodeKind) (fi : Bool) (cs : BChildren) :
    ArrayStreamBuilder.addItem value (.comp k true fi cs) = .comp k true true cs := by
  cases value <;> cases fi <;> rfl

/-- Any method call on a node whose end has been requested leaves its queue
(and `endScheduled`) unchanged; at most `firstInserted` flips. -/
theorem runOp_ended (o : BOp) (k : NodeKind) (fi : Bool) (cs : BChildren) :
    ∃ fi', runOp o (.comp k true fi cs) = .comp k true fi' cs := by
  cases k <;> cases o <;> first
    | exact ⟨fi, rfl⟩
    | exact ⟨true, addProperty_ended _ _ _ _ _⟩
    | exact ⟨true, addItem_ended _ _ _ _⟩
    | exact addProperties_ended _ _ _ _
    | exact addItems_ended _ _ _ _

/-! ## Closed nodes stay closed -/

theorem closed_runOp (o : BOp) : ∀ {t : BNode}, closedB t = true → closedB (runOp o t) = true
  | .leaf _, _ => rfl
  | .comp k e fi cs, h => by
      rw [show closedB (.comp k e fi cs) = (e && closedL cs) from rfl,
        Bool.and_eq_true] at h
      obtain rfl := h.1
      obtain ⟨fi', hfi⟩ := runOp_ended o k fi cs
      rw [hfi]
      rw [show closedB (.comp k true fi' cs) = (true && closedL cs) from rfl, h.2]
      rfl

theorem closedL_modifyIdx : ∀ {cs : BChildren}, closedL cs = true →
    ∀ {i : Nat} {F : BNode → BNode},
      (∀ c, cs.childAt i = some c → closedB (F c) = true) →
      closedL (BChildren.modifyIdx i F cs) = true
  | .nil, h, i, F, _ => by rw [BChildren.modifyIdx_nil]; exact h
  | .cons x tl, h, 0, F, hF => by
      rw [show closedL (.cons x tl) = (closedB x && closedL tl) from rfl,
        Bool.and_eq_true] at h
      show (closedB (F x) && closedL tl) = true
      rw [hF x rfl, h.2]
      rfl
  | .cons x tl, h, i + 1, F, hF => by
      rw [show closedL (.cons x tl) = (closedB x && closedL tl) from rfl,
        Bool.and_eq_true] at h
      show (closedB x && closedL (BChildren.modifyIdx i F tl)) = true
      rw [h.1, closedL_modifyIdx h.2 (fun c hc => hF c (by simpa [BChildren.childAt] using hc))]
      rfl

theorem closed_applyAt (o : BOp) : ∀ (p : List Nat) (t : BNode),
    closedB t = true → closedB (applyAt p (runOp o) t) = true
  | [], t, h => closed_runOp o h
  | _ :: _, .leaf s, h => h
  | i :: p, .comp k e fi cs, h => by
      rw [show closedB (.comp k e fi cs) = (e && closedL cs) from rfl,
        Bool.and_eq_true] at h
      show (e && closedL (BChildren.modifyIdx i (applyAt p (runOp o)) cs)) = true
      rw [h.1, closedL_modifyIdx h.2
        (fun c hc => closed_applyAt o p c (closedL_childAt h.2 hc))]
      rfl

theorem getNode_append : ∀ (p q : List Nat) (t : BNode),
    getNode (p ++ q) t = (getNode p t).bind (getNode q)
  | [], q, t => rfl
  | _ :: _, q, .leaf s => rfl
  | i :: p, q, .comp k e fi cs => by
      show (cs.childAt i).bind (getNode (p ++ q)) = ((cs.childAt i).bind (getNode p)).bind (getNode q)
      cases cs.childAt i with
      | none => rfl
      | some c => simpa using getNode_append p q c

/-- A node that has closed keeps a closed node at its position whatever
later call runs anywhere in the tree. -/
theorem getNode_closed_applyAt (o : BOp) : ∀ (q : List Nat) (pe : List Nat) (t : BNode)
    {n : BNode}, getNode q t = some n → closedB n = true →
    ∃ n', getNode q (applyAt pe (runOp o) t) = some n' ∧ closedB n' = true
  | [], pe, t, n, hn, hc => by
      have h2 : t = n := by simpa [getNode] using hn
      subst h2
      exact ⟨applyAt pe (runOp o) t, rfl, closed_applyAt o pe t hc⟩
  | j :: q, _, .leaf s, n, hn, _ => by simp [getNode] at hn
  | j :: q, [], .comp k e fi cs, n, hn, hc => by
      obtain ⟨c, hcat, hrec⟩ := Option.bind_eq_some.mp (by simpa [getNode] using hn)
      obtain ⟨e', fi', a, ha⟩ := (shaped_runOp o).2 k e fi
      refine ⟨n, ?_, hc⟩
      show getNode (j :: q) (runOp o (.comp k e fi cs)) = some n
      rw [ha]
      show (((cs ++ a).childAt j).bind (getNode q)) = some n
      rw [BChildren.childAt_append_left hcat]
      simpa using hrec
  | j :: q, i :: pe, .comp k e fi cs, n, hn, hc => by
      obtain ⟨c, hcat, hrec⟩ := Option.bind_eq_some.mp (by simpa [getNode] using hn)
      by_cases hij : j = i
      · subst hij
        obtain ⟨n', hn', hc'⟩ := getNode_closed_applyAt o q pe c hrec hc
        refine ⟨n', ?_, hc'⟩
        show ((BChildren.modifyIdx j (applyAt pe (runOp o)) cs).childAt j).bind (getNode q) = some n'
        rw [BChildren.childAt_modifyIdx_self, hcat]
        simpa using hn'
      · refine ⟨n, ?_, hc⟩
        show ((BChildren.modifyIdx i (applyAt pe (runOp o)) cs).childAt j).bind (getNode q) = some n
        rw [BChildren.childAt_modifyIdx_ne hij, hcat]
        simpa using hrec

theorem closedL_iff_activeChild_none : ∀ cs : BChildren,
    closedL cs = true ↔ activeChild cs = none
  | .nil => by simp [closedL, activeChild]
  | .cons c tl => by
      rw [show closedL (.cons c tl) = (closedB c && closedL tl) from rfl,
        Bool.and_eq_true]
      show _ ↔ (if closedB c then activeChild tl else some c) = none
      cases h : closedB c with
      | false => simp [h]
      | true => simpa [h] using closedL_iff_activeChild_none tl

theorem pendingQueue_nil_of_closedL : ∀ {cs : BChildren}, closedL cs = true →
    pendingQueue cs = BChildren.nil
  | .nil, _ => rfl
  | .cons c tl, h => by
      rw [show closedL (.cons c tl) = (closedB c && closedL tl) from rfl,
        Bool.and_eq_true] at h
      show (if closedB c then pendingQueue tl else tl) = BChildren.nil
      rw [h.1]
      simpa using pendingQueue_nil_of_closedL h.2

/-! ## Equation lemmas for the channel semantics -/

theorem closedB_leaf (s : Txt) : closedB (.leaf s) = true := rfl

theorem closedB_comp (k : NodeKind) (e fi : Bool) (cs : BChildren) :
    closedB (.comp k e fi cs) = (e && closedL cs) := rfl

theorem closedL_nil : closedL .nil = true := rfl

theorem closedL_cons (c : BNode) (tl : BChildren) :
    closedL (.cons c tl) = (closedB c && closedL tl) := rfl

theorem emitted_leaf (s : Txt) : emitted (.leaf s) = s := rfl

theorem emitted_comp (k : NodeKind) (e fi : Bool) (cs : BChildren) :
    emitted (.comp k e fi cs) = emitL cs := rfl

theorem emitL_nil : emitL .nil = [] := rfl

theorem emitL_cons (c : BNode) (tl : BChildren) :
    emitL (.cons c tl) = if closedB c then emitted c ++ emitL tl else emitted c := rfl

/-! ## Texts assembled member by member equal the one-shot texts -/

theorem itemsHead_eq : ∀ items : JsonList, itemsHead items = stringifyItems items
  | .nil => rfl
  | .cons v .nil => by
      show jsonStringify v ++ itemsTail .nil = stringifyItems (.cons v .nil)
      simp [itemsTail, stringifyItems]
  | .cons v (JsonList.cons w tl) => by
      show jsonStringify v ++ itemsTail (.cons w tl) = stringifyItems (.cons v (.cons w tl))
      rw [show itemsTail (JsonList.cons w tl) =
        ',' :: (jsonStringify w ++ itemsTail tl) from rfl]
      rw [show stringifyItems (JsonList.cons v (JsonList.cons w tl)) =
        jsonStringify v ++ (',' :: stringifyItems (JsonList.cons w tl)) from rfl]
      have := itemsHead_eq (JsonList.cons w tl)
      rw [show itemsHead (JsonList.cons w tl) =
        jsonStringify w ++ itemsTail tl from rfl] at this
      rw [← this]

theorem keyFrag_safe {k : String} (h : keySafe k = true) (x : Txt) :
    ObjectStreamBuilder.keyFrag k ++ x = jsonQuote k ++ (':' :: x) := by
  have he : escList k.data = k.data := of_decide_eq_true h
  simp [ObjectStreamBuilder.keyFrag, jsonQuote, he]

theorem fieldsHead_eq : ∀ fields : JsonFields, safeKeysF fields = true →
    fieldsHead fields = stringifyFields fields
  | .nil, _ => rfl
  | .cons k v .nil, h => by
      have hk : keySafe k = true := by
        rw [show safeKeysF (.cons k v .nil) =
          (keySafe k && safeKeysV v && safeKeysF .nil) from rfl] at h
        simp [Bool.and_eq_true] at h
        exact h.1.1
      show ObjectStreamBuilder.keyFrag k ++ (jsonStringify v ++ fieldsTail .nil) =
        stringifyFields (.cons k v .nil)
      rw [show fieldsTail JsonFields.nil = ([] : Txt) from rfl, List.append_nil,
        keyFrag_safe hk]
      rfl
  | .cons k v (JsonFields.cons k2 v2 tl), h => by
      rw [show safeKeysF (.cons k v (JsonFields.cons k2 v2 tl)) =
        (keySafe k && safeKeysV v && safeKeysF (JsonFields.cons k2 v2 tl)) from rfl,
        Bool.and_eq_true, Bool.and_eq_true] at h
      have ih := fieldsHead_eq (JsonFields.cons k2 v2 tl) h.2
      show ObjectStreamBuilder.keyFrag k ++
          (jsonStringify v ++ fieldsTail (JsonFields.cons k2 v2 tl)) =
        stringifyFields (.cons k v (.cons k2 v2 tl))
      rw [show fieldsTail (JsonFields.cons k2 v2 tl) =
        ',' :: (ObjectStreamBuilder.keyFrag k2 ++ (jsonStringify v2 ++ fieldsTail tl)) from rfl]
      rw [show stringifyFields (JsonFields.cons k v (JsonFields.cons k2 v2 tl)) =
        (jsonQuote k ++ (':' :: jsonStringify v)) ++
          (',' :: stringifyFields (JsonFields.cons k2 v2 tl)) from rfl]
      rw [← ih]
      rw [show fieldsHead (JsonFields.cons k2 v2 tl) =
        ObjectStreamBuilder.keyFrag k2 ++ (jsonStringify v2 ++ fieldsTail tl) from rfl]
      rw [keyFrag_safe h.1.1]
      simp [List.append_assoc]

/-! ## The walker reproduces the one-shot text -/

theorem value_fresh_spec (v : JsonValue) :
    closedB (JsonStreamBuilder.value v JsonStreamBuilder.fresh) = true ∧
    emitted (JsonStreamBuilder.value v JsonStreamBuilder.fresh) = jsonStringify v := by
  constructor
  · rfl
  · show emitL (.cons (.leaf (jsonStringify v)) .nil) = jsonStringify v
    rw [emitL_cons]
    simp [closedB_leaf, emitted_leaf, emitL_nil]

theorem primitive_fresh_eq (v : JsonValue) :
    JsonStreamBuilder.primitive v JsonStreamBuilder.fresh =
      JsonStreamBuilder.value v JsonStreamBuilder.fresh := rfl

theorem deep_dispatch_spec {A : BNode} (hA : closedB A = true) :
    closedB (Builder.scheduleEnd (Builder.addChildBuilder A JsonStreamBuilder.fresh)) = true ∧
    emitted (Builder.scheduleEnd (Builder.addChildBuilder A JsonStreamBuilder.fresh)) =
      emitted A := by
  rw [show Builder.scheduleEnd (Builder.addChildBuilder A JsonStreamBuilder.fresh) =
    BNode.comp .dispatch true false (.cons A .nil) from rfl]
  constructor
  · rw [closedB_comp, closedL_cons, closedL_nil, hA]
    rfl
  · rw [emitted_comp, emitL_cons, hA]
    simp [emitL_nil]


mutual

theorem walkV_spec : ∀ (v : JsonValue) (c : Choice), safeKeysV v = true →
    closedB (walkV v c JsonStreamBuilder.fresh) = true ∧
    emitted (walkV v c JsonStreamBuilder.fresh) = jsonStringify v
  | .null, _, _ => value_fresh_spec .null
  | .jbool b, _, _ => value_fresh_spec (.jbool b)
  | .jnum n, _, _ => value_fresh_spec (.jnum n)
  | .jstr s, _, _ => value_fresh_spec (.jstr s)
  | .jarr items, .inline, _ => value_fresh_spec (.jarr items)
  | .jobj fields, .inline, _ => value_fresh_spec (.jobj fields)
  | .jarr items, .deep ds, h => by
      have hsafe : safeKeysL items = true := h
      obtain ⟨fi', app, heq, hcl, htxt⟩ :=
        walkItems_spec items ds false (.cons (.leaf ['[']) .nil) hsafe
      have hA : ArrayStreamBuilder.endCall
          (walkItems items ds ArrayStreamBuilder.fresh) =
          .comp .arr true fi'
            (((.cons (.leaf ['[']) .nil) ++ app) ++ .cons (.leaf [']']) .nil) := by
        rw [show ArrayStreamBuilder.fresh =
          BNode.comp .arr false false (.cons (.leaf ['[']) .nil) from rfl, heq]
        rfl
      have hAclosed : closedB (ArrayStreamBuilder.endCall
          (walkItems items ds ArrayStreamBuilder.fresh)) = true := by
        rw [hA, closedB_comp, closedL_append, closedL_append, hcl]
        simp [closedL_cons, closedL_nil, closedB_leaf]
      have hAemit : emitted (ArrayStreamBuilder.endCall
          (walkItems items ds ArrayStreamBuilder.fresh)) = jsonStringify (.jarr items) := by
        rw [hA, emitted_comp]
        rw [emitL_append_closed (by rw [closedL_append, hcl]; simp [closedL_cons,
          closedL_nil, closedB_leaf])]
        rw [emitL_append_closed (by simp [closedL_cons, closedL_nil, closedB_leaf])]
        rw [htxt]
        rw [show emitL (.cons (.leaf ['[']) .nil) = ['['] from rfl,
          show emitL (.cons (.leaf [']']) .nil) = [']'] from rfl]
        rw [if_neg (by decide), itemsHead_eq]
        rw [show jsonStringify (.jarr items) = '[' :: (stringifyItems items ++ [']']) from rfl]
        simp
      have hnode := deep_dispatch_spec hAclosed
      exact ⟨hnode.1, by rw [show walkV (.jarr items) (.deep ds) JsonStreamBuilder.fresh =
        Builder.scheduleEnd (Builder.addChildBuilder (ArrayStreamBuilder.endCall
          (walkItems items ds ArrayStreamBuilder.fresh)) JsonStreamBuilder.fresh) from rfl,
        hnode.2, hAemit]⟩
  | .jobj fields, .deep ds, h => by
      have hsafe : safeKeysF fields = true := h
      obtain ⟨fi', app, heq, hcl, htxt⟩ :=
        walkFields_spec fields ds false (.cons (.leaf ['\x7b']) .nil) hsafe
      have hA : ObjectStreamBuilder.endCall
          (walkFields fields ds ObjectStreamBuilder.fresh) =
          .comp .obj true fi'
            (((.cons (.leaf ['\x7b']) .nil) ++ app) ++ .cons (.leaf ['\x7d']) .nil) := by
        rw [show ObjectStreamBuilder.fresh =
          BNode.comp .obj false false (.cons (.leaf ['\x7b']) .nil) from rfl, heq]
        rfl
      have hAclosed : closedB (ObjectStreamBuilder.endCall
          (walkFields fields ds ObjectStreamBuilder.fresh)) = true := by
        rw [hA, closedB_comp, closedL_append, closedL_append, hcl]
        simp [closedL_cons, closedL_nil, closedB_leaf]
      have hAemit : emitted (ObjectStreamBuilder.endCall
          (walkFields fields ds ObjectStreamBuilder.fresh)) =
          jsonStringify (.jobj fields) := by
        rw [hA, emitted_comp]
        rw [emitL_append_closed (by rw [closedL_append, hcl]; simp [closedL_cons,
          closedL_nil, closedB_leaf])]
        rw [emitL_append_closed (by simp [closedL_cons, closedL_nil, closedB_leaf])]
        rw [htxt]
        rw [show emitL (.cons (.leaf ['\x7b']) .nil) = ['\x7b'] from rfl,
          show emitL (.cons (.leaf ['\x7d']) .nil) = ['\x7d'] from rfl]
        rw [if_neg (by decide), fieldsHead_eq fields hsafe]
        rw [show jsonStringify (.jobj fields) =
          '\x7b' :: (stringifyFields fields ++ ['\x7d']) from rfl]
        simp
      have hnode := deep_dispatch_spec hAclosed
      exact ⟨hnode.1, by rw [show walkV (.jobj fields) (.deep ds) JsonStreamBuilder.fresh =
        Builder.scheduleEnd (Builder.addChildBuilder (ObjectStreamBuilder.endCall
          (walkFields fields ds ObjectStreamBuilder.fresh)) JsonStreamBuilder.fresh) from rfl,
        hnode.2, hAemit]⟩

theorem walkItems_spec : ∀ (items : JsonList) (cs : List Choice) (fi : Bool)
    (acc : BChildren), safeKeysL items = true →
    ∃ fi' app, walkItems items cs (.comp .arr false fi acc) =
        .comp .arr false fi' (acc ++ app) ∧
      closedL app = true ∧
      emitL app = (if fi = true then itemsTail items else itemsHead items)
  | .nil, cs, fi, acc, _ => ⟨fi, .nil, by rw [BChildren.append_nil]; rfl, rfl,
      by cases fi <;> rfl⟩
  | .cons v tl, cs, fi, acc, h => by
      rw [show safeKeysL (.cons v tl) = (safeKeysV v && safeKeysL tl) from rfl,
        Bool.and_eq_true] at h
      have main : ∀ (t2 : BNode) (memAll : BChildren),
          t2 = .comp .arr false true (acc ++ memAll) → closedL memAll = true →
          emitL memAll = (if fi = true then ',' :: jsonStringify v else jsonStringify v) →
          ∀ crest : List Choice, ∃ fi' app, walkItems tl crest t2 =
              .comp .arr false fi' (acc ++ app) ∧
            closedL app = true ∧
            emitL app = (if fi = true then itemsTail (.cons v tl)
              else itemsHead (.cons v tl)) := by
        intro t2 memAll ht2 hmc hme crest
        obtain ⟨fi', app', heq', hcl', htxt'⟩ := walkItems_spec tl crest true
          (acc ++ memAll) h.2
        rw [if_pos rfl] at htxt'
        refine ⟨fi', memAll ++ app', ?_, ?_, ?_⟩
        · rw [ht2, heq', BChildren.append_assoc]
        · rw [closedL_append, hmc, hcl']
          rfl
        · rw [emitL_append_closed hmc, hme, htxt']
          cases fi with
          | false =>
            rw [if_neg (by decide), if_neg (by decide)]
            rfl
          | true =>
            rw [if_pos rfl, if_pos rfl]
            rw [show itemsTail (JsonList.cons v tl) =
              ',' :: (jsonStringify v ++ itemsTail tl) from rfl]
            simp
      have hinline : ∀ crest : List Choice, ∃ fi' app,
          walkItems tl crest (ArrayStreamBuilder.pushItem v (.comp .arr false fi acc)) =
            .comp .arr false fi' (acc ++ app) ∧
          closedL app = true ∧
          emitL app = (if fi = true then itemsTail (.cons v tl)
            else itemsHead (.cons v tl)) := by
        intro crest
        cases fi with
        | false =>
          refine main _ (.cons (.leaf (jsonStringify v)) .nil) rfl rfl ?_ crest
          rw [if_neg (by decide)]
          rw [emitL_cons, closedB_leaf, if_pos rfl, emitted_leaf, emitL_nil,
            List.append_nil]
        | true =>
          refine main _ (.cons (.leaf [',']) (.cons (.leaf (jsonStringify v)) .nil))
            ?_ rfl ?_ crest
          · show BNode.comp .arr false true
              ((acc ++ .cons (.leaf [',']) .nil) ++ .cons (.leaf (jsonStringify v)) .nil) = _
            rw [BChildren.append_assoc]
            rfl
          · rw [if_pos rfl]
            rw [emitL_cons, closedB_leaf, if_pos rfl, emitted_leaf,
              emitL_cons, closedB_leaf, if_pos rfl, emitted_leaf, emitL_nil,
              List.append_nil]
            rfl
      cases cs with
      | nil => exact hinline []
      | cons c crest =>
        cases c with
        | inline => exact hinline crest
        | deep ds =>
          have hD := walkV_spec v (Choice.deep ds) h.1
          cases fi with
          | false =>
            refine main _ (.cons (walkV v (Choice.deep ds) JsonStreamBuilder.fresh) .nil)
              rfl ?_ ?_ crest
            · rw [closedL_cons, hD.1, closedL_nil]
              rfl
            · rw [if_neg (by decide)]
              rw [emitL_cons, hD.1, if_pos rfl, hD.2, emitL_nil, List.append_nil]
          | true =>
            refine main _ (.cons (.leaf [','])
              (.cons (walkV v (Choice.deep ds) JsonStreamBuilder.fresh) .nil)) ?_ ?_ ?_ crest
            · show BNode.comp .arr false true
                ((acc ++ .cons (.leaf [',']) .nil) ++
                  .cons (walkV v (Choice.deep ds) JsonStreamBuilder.fresh) .nil) = _
              rw [BChildren.append_assoc]
              rfl
            · rw [closedL_cons, closedL_cons, closedB_leaf, hD.1, closedL_nil]
              rfl
            · rw [if_pos rfl]
              rw [emitL_cons, closedB_leaf, if_pos rfl, emitted_leaf,
                emitL_cons, hD.1, if_pos rfl, hD.2, emitL_nil, List.append_nil]
              rfl

theorem walkFields_spec : ∀ (fields : JsonFields) (cs : List Choice) (fi : Bool)
    (acc : BChildren), safeKeysF fields = true →
    ∃ fi' app, walkFields fields cs (.comp .obj false fi acc) =
        .comp .obj false fi' (acc ++ app) ∧
      closedL app = true ∧
      emitL app = (if fi = true then fieldsTail fields else fieldsHead fields)
  | .nil, cs, fi, acc, _ => ⟨fi, .nil, by rw [BChildren.append_nil]; rfl, rfl,
      by cases fi <;> rfl⟩
  | .cons k v tl, cs, fi, acc, h => by
      rw [show safeKeysF (.cons k v tl) =
        (keySafe k && safeKeysV v && safeKeysF tl) from rfl,
        Bool.and_eq_true, Bool.and_eq_true] at h
      have main : ∀ (t2 : BNode) (memAll : BChildren),
          t2 = .comp .obj false true (acc ++ memAll) → closedL memAll = true →
          emitL memAll = (if fi = true
            then ',' :: (ObjectStreamBuilder.keyFrag k ++ jsonStringify v)
            else ObjectStreamBuilder.keyFrag k ++ jsonStringify v) →
          ∀ crest : List Choice, ∃ fi' app, walkFields tl crest t2 =
              .comp .obj false fi' (acc ++ app) ∧
            closedL app = true ∧
            emitL app = (if fi = true then fieldsTail (.cons k v tl)
              else fieldsHead (.cons k v tl)) := by
        intro t2 memAll ht2 hmc hme crest
        obtain ⟨fi', app', heq', hcl', htxt'⟩ := walkFields_spec tl crest true
          (acc ++ memAll) h.2
        rw [if_pos rfl] at htxt'
        refine ⟨fi', memAll ++ app', ?_, ?_, ?_⟩
        · rw [ht2, heq', BChildren.append_assoc]
        · rw [closedL_append, hmc, hcl']
          rfl
        · rw [emitL_append_closed hmc, hme, htxt']
          cases fi with
          | false =>
            rw [if_neg (by decide), if_neg (by decide)]
            rw [show fieldsHead (JsonFields.cons k v tl) =
              ObjectStreamBuilder.keyFrag k ++ (jsonStringify v ++ fieldsTail tl) from rfl]
            simp
          | true =>
            rw [if_pos rfl, if_pos rfl]
            rw [show fieldsTail (JsonFields.cons k v tl) =
              ',' :: (ObjectStreamBuilder.keyFrag k ++ (jsonStringify v ++ fieldsTail tl))
              from rfl]
            simp
      have hinline : ∀ crest : List Choice, ∃ fi' app,
          walkFields tl crest
            (ObjectStreamBuilder.pushProperty k v (.comp .obj false fi acc)) =
            .comp .obj false fi' (acc ++ app) ∧
          closedL app = true ∧
          emitL app = (if fi = true then fieldsTail (.cons k v tl)
            else fieldsHead (.cons k v tl)) := by
        intro crest
        cases fi with
        | false =>
          refine main _
            (.cons (.leaf (ObjectStreamBuilder.keyFrag k ++ jsonStringify v)) .nil)
            rfl rfl ?_ crest
          rw [if_neg (by decide)]
          rw [emitL_cons, closedB_leaf, if_pos rfl, emitted_leaf, emitL_nil,
            List.append_nil]
        | true =>
          refine main _ (.cons (.leaf [','])
            (.cons (.leaf (ObjectStreamBuilder.keyFrag k ++ jsonStringify v)) .nil))
            ?_ rfl ?_ crest
          · show BNode.comp .obj false true
              ((acc ++ .cons (.leaf [',']) .nil) ++
                .cons (.leaf (ObjectStreamBuilder.keyFrag k ++ jsonStringify v)) .nil) = _
            rw [BChildren.append_assoc]
            rfl
          · rw [if_pos rfl]
            rw [emitL_cons, closedB_leaf, if_pos rfl, emitted_leaf,
              emitL_cons, closedB_leaf, if_pos rfl, emitted_leaf, emitL_nil,
              List.append_nil]
            rfl
      cases cs with
      | nil => exact hinline []
      | cons c crest =>
        cases c with
        | inline => exact hinline crest
        | deep ds =>
          have hD := walkV_spec v (Choice.deep ds) h.1.2
          cases fi with
          | false =>
            refine main _ (.cons (.leaf (ObjectStreamBuilder.keyFrag k))
              (.cons (walkV v (Choice.deep ds) JsonStreamBuilder.fresh) .nil)) ?_ ?_ ?_ crest
            · show BNode.comp .obj false true
                ((acc ++ .cons (.leaf (ObjectStreamBuilder.keyFrag k)) .nil) ++
                  .cons (walkV v (Choice.deep ds) JsonStreamBuilder.fresh) .nil) = _
              rw [BChildren.append_assoc]
              rfl
            · rw [closedL_cons, closedL_cons, closedB_leaf, hD.1, closedL_nil]
              rfl
            · rw [if_neg (by decide)]
              rw [emitL_cons, closedB_leaf, if_pos rfl, emitted_leaf,
                emitL_cons, hD.1, if_pos rfl, hD.2, emitL_nil, List.append_nil]
          | true =>
            refine main _ (.cons (.leaf [','])
              (.cons (.leaf (ObjectStreamBuilder.keyFrag k))
                (.cons (walkV v (Choice.deep ds) JsonStreamBuilder.fresh) .nil))) ?_ ?_ ?_ crest
            · show BNode.comp .obj false true
                (((acc ++ .cons (.leaf [',']) .nil) ++
                  .cons (.leaf (ObjectStreamBuilder.keyFrag k)) .nil) ++
                  .cons (walkV v (Choice.deep ds) JsonStreamBuilder.fresh) .nil) = _
              rw [BChildren.append_assoc, BChildren.append_assoc]
              rfl
            · rw [closedL_cons, closedL_cons, closedL_cons, closedB_leaf, closedB_leaf,
                hD.1, closedL_nil]
              rfl
            · rw [if_pos rfl]
              rw [emitL_cons, closedB_leaf, if_pos rfl, emitted_leaf,
                emitL_cons, closedB_leaf, if_pos rfl, emitted_leaf,
                emitL_cons, hD.1, if_pos rfl, hD.2, emitL_nil, List.append_nil]
              rfl

end

/-! ## Remaining queue facts -/

theorem bchildren_length_append : ∀ xs ys : BChildren,
    (xs ++ ys).length = xs.length + ys.length
  | .nil, ys => by simp [BChildren.nil_append, BChildren.length]
  | .cons x tl, ys => by
      rw [BChildren.cons_append]
      show (tl ++ ys).length + 1 = (tl.length + 1) + ys.length
      rw [bchildren_length_append tl ys]
      omega

theorem childAt_append_len : ∀ (xs ys : BChildren) (j : Nat),
    (xs ++ ys).childAt (xs.length + j) = ys.childAt j
  | .nil, ys, j => by simp [BChildren.nil_append, BChildren.length]
  | .cons x tl, ys, j => by
      rw [BChildren.cons_append]
      have h1 : (BChildren.cons x tl).length + j = (tl.length + j) + 1 := by
        show tl.length + 1 + j = (tl.length + j) + 1
        omega
      rw [h1]
      show (tl ++ ys).childAt (tl.length + j) = ys.childAt j
      exact childAt_append_len tl ys j

theorem proj_swap {x y : Ev} (h : x.path ≠ y.path) (l1 l2 : List Ev) (p : List Nat) :
    proj p (l1 ++ x :: y :: l2) = proj p (l1 ++ y :: x :: l2) := by
  simp only [proj, List.filter_append, List.filter_cons]
  by_cases hx : x.path = p <;> by_cases hy : y.path = p
  · exact absurd (hx.trans hy.symm) h
  · simp [hx, hy]
  · simp [hx, hy]
  · simp [hx, hy]

/-! # The claims -/

/-- C4: the call sequence `object().addProperty('a',1).addProperty('b',2).end()`
produces exactly the text `{"a":1,"b":2}` — single-character `,` member
separator, `:` key separator, `{`/`}` delimiters, no other whitespace — and
the channel closes. -/
theorem C4_exact_text :
    emitted (applyTrace JsonStreamBuilder.fresh exampleTrace) =
      ("\x7b\"a\":1,\"b\":2\x7d").data ∧
    closedB (applyTrace JsonStreamBuilder.fresh exampleTrace) = true ∧
    okTrace JsonStreamBuilder.fresh exampleTrace = true := by
  refine ⟨?_, ?_, ?_⟩ <;> decide

/-- C9: on a fresh undecided-shape context, `primitive(value)` appends the
encoded value as its single (already closed) child, requests the context's
own end, and returns the parent; consequently the context's channel closes
with content exactly the JSON literal of the value. -/
theorem C9_primitive_spec (v : JsonValue) (h : Handle) :
    JsonStreamBuilder.primitive v JsonStreamBuilder.fresh =
      .comp .dispatch true false (.cons (.leaf (jsonStringify v)) .nil) ∧
    closedB (JsonStreamBuilder.primitive v JsonStreamBuilder.fresh) = true ∧
    emitted (JsonStreamBuilder.primitive v JsonStreamBuilder.fresh) = jsonStringify v ∧
    JsonStreamBuilder.primitiveRet h = h.parentPath := by
  refine ⟨rfl, rfl, ?_, rfl⟩
  rw [primitive_fresh_eq]
  exact (value_fresh_spec v).2

/-- C10: `addProperty(k, undefined)` and `addItem(undefined)` take the
`value !== undefined` test's negative branch, so they behave exactly as the
no-value overloads: no value fragment is appended; on a live node the queue
gains (separator,) key prefix and a fresh undecided-shape child, which sits
at the tail — the position the returned context designates. -/
theorem C10_undefined_is_open_ended (key : String) :
    (∀ t : BNode, ObjectStreamBuilder.addProperty key .undef t =
      ObjectStreamBuilder.addPropertyOpenEnded key t) ∧
    (∀ t : BNode, ArrayStreamBuilder.addItem .undef t =
      ArrayStreamBuilder.addItemOpenEnded t) ∧
    (∀ (k : NodeKind) (fi : Bool) (cs : BChildren),
      ObjectStreamBuilder.addProperty key .undef (.comp k false fi cs) =
        .comp k false true (cs ++
          ((if fi then BChildren.cons (.leaf [',']) .nil else .nil) ++
            .cons (.leaf (ObjectStreamBuilder.keyFrag key))
              (.cons JsonStreamBuilder.fresh .nil)))) ∧
    (∀ (k : NodeKind) (fi : Bool) (cs : BChildren),
      (childrenOf (ObjectStreamBuilder.addProperty key .undef (.comp k false fi cs))).childAt
          (childCount (ObjectStreamBuilder.addProperty key .undef (.comp k false fi cs)) - 1) =
        some JsonStreamBuilder.fresh) := by
  refine ⟨fun t => rfl, fun t => rfl, ?_, ?_⟩
  · intro k fi cs
    cases fi with
    | false =>
      show BNode.comp k false true ((cs ++ .cons (.leaf (ObjectStreamBuilder.keyFrag key)) .nil)
        ++ .cons JsonStreamBuilder.fresh .nil) = _
      rw [BChildren.append_assoc]
      rfl
    | true =>
      show BNode.comp k false true (((cs ++ .cons (.leaf [',']) .nil) ++
        .cons (.leaf (ObjectStreamBuilder.keyFrag key)) .nil)
        ++ .cons JsonStreamBuilder.fresh .nil) = _
      rw [BChildren.append_assoc, BChildren.append_assoc]
      rfl
  · intro k fi cs
    cases fi with
    | false =>
      show ((cs ++ .cons (.leaf (ObjectStreamBuilder.keyFrag key)) .nil)
          ++ .cons JsonStreamBuilder.fresh .nil).childAt
        (((cs ++ .cons (.leaf (ObjectStreamBuilder.keyFrag key)) .nil)
          ++ .cons JsonStreamBuilder.fresh .nil).length - 1) = some JsonStreamBuilder.fresh
      rw [bchildren_length_append, bchildren_length_append]
      have h1 : cs.length + (BChildren.cons (.leaf (ObjectStreamBuilder.keyFrag key))
          BChildren.nil).length + (BChildren.cons JsonStreamBuilder.fresh BChildren.nil).length
          - 1 = (cs ++ .cons (.leaf (ObjectStreamBuilder.keyFrag key)) .nil).length + 0 := by
        rw [bchildren_length_append]
        show cs.length + 1 + 1 - 1 = cs.length + 1 + 0
        omega
      rw [h1, childAt_append_len]
      rfl
    | true =>
      show (((cs ++ .cons (.leaf [',']) .nil) ++
          .cons (.leaf (ObjectStreamBuilder.keyFrag key)) .nil)
          ++ .cons JsonStreamBuilder.fresh .nil).childAt
        ((((cs ++ .cons (.leaf [',']) .nil) ++
          .cons (.leaf (ObjectStreamBuilder.keyFrag key)) .nil)
          ++ .cons JsonStreamBuilder.fresh .nil).length - 1) = some JsonStreamBuilder.fresh
      rw [bchildren_length_append]
      have h1 : ((cs ++ .cons (.leaf [',']) .nil) ++
          .cons (.leaf (ObjectStreamBuilder.keyFrag key)) .nil).length +
          (BChildren.cons JsonStreamBuilder.fresh BChildren.nil).length - 1 =
          ((cs ++ .cons (.leaf [',']) .nil) ++
          .cons (.leaf (ObjectStreamBuilder.keyFrag key)) .nil).length + 0 := by
        show _ + 1 - 1 = _ + 0
        omega
      rw [h1, childAt_append_len]
      rfl

/-- C7: the bulk forms exist on the aggregate contexts (modelled from the
spec, since their implementation is not among the provided sources): each
applies the inline form once per entry in iteration order, returns the same
context, and an empty map/sequence is a no-op; composed with the real
inline form they reproduce the repository's bulk-form test output. -/
theorem C7_bulk_forms :
    (∀ t : BNode, ObjectStreamBuilder.addProperties .nil t = t) ∧
    (∀ t : BNode, ArrayStreamBuilder.addItems .nil t = t) ∧
    (∀ (k : String) (v : JsonValue) (tl : JsonFields) (t : BNode),
      ObjectStreamBuilder.addProperties (.cons k v tl) t =
        ObjectStreamBuilder.addProperties tl (ObjectStreamBuilder.pushProperty k v t)) ∧
    (∀ (v : JsonValue) (tl : JsonList) (t : BNode),
      ArrayStreamBuilder.addItems (.cons v tl) t =
        ArrayStreamBuilder.addItems tl (ArrayStreamBuilder.pushItem v t)) ∧
    (∀ h : Handle, ObjectStreamBuilder.addPropertiesRet h = h ∧
      ArrayStreamBuilder.addItemsRet h = h) ∧
    emitted (applyTrace JsonStreamBuilder.fresh bulkTrace) =
      ("\x7b\"foo\":null,\"bar\":42,\"x\":\"a\",\"y\":\"b\",\"baz\":\x7b\"a\":1\x7d\x7d").data := by
  refine ⟨fun t => rfl, fun t => rfl, fun k v tl t => rfl, fun v tl t => rfl,
    fun h => ⟨rfl, rfl⟩, by decide⟩

/-- C3: on a node whose end has been requested, every further append
(`addChildBuilder`, `addProperty`, `addItem`, `primitive`, `object`,
`array`, the bulk forms) and every further `end` leaves the channel content,
its closed state and the whole queue unchanged (and, being total functions,
raises nothing); only the private `firstInserted` flag may flip. -/
theorem C3_post_end_noop (o : BOp) (k : NodeKind) (fi : Bool) (cs : BChildren) :
    emitted (runOp o (.comp k true fi cs)) = emitted (.comp k true fi cs) ∧
    closedB (runOp o (.comp k true fi cs)) = closedB (.comp k true fi cs) ∧
    (∃ fi', runOp o (.comp k true fi cs) = .comp k true fi' cs) ∧
    (∀ c : BNode, Builder.addChildBuilder c (.comp k true fi cs) = .comp k true fi cs) := by
  obtain ⟨fi', hfi⟩ := runOp_ended o k fi cs
  refine ⟨?_, ?_, ⟨fi', hfi⟩, fun c => rfl⟩
  · rw [hfi, emitted_comp, emitted_comp]
  · rw [hfi, closedB_comp, closedB_comp]

/-- C5: a node's channel is closed exactly when its end has been requested,
its pending queue is empty and it has no active child; in particular a node
whose end was never requested never closes. -/
theorem C5_closure_iff (k : NodeKind) (e fi : Bool) (cs : BChildren) :
    (closedB (.comp k e fi cs) = true ↔
      (e = true ∧ pendingQueue cs = .nil ∧ activeChild cs = none)) ∧
    (e = false → closedB (.comp k e fi cs) = false) := by
  constructor
  · rw [closedB_comp, Bool.and_eq_true]
    constructor
    · intro h
      exact ⟨h.1, pendingQueue_nil_of_closedL h.2,
        (closedL_iff_activeChild_none cs).mp h.2⟩
    · intro h
      exact ⟨h.1, (closedL_iff_activeChild_none cs).mpr h.2.2⟩
  · intro h
    subst h
    rw [closedB_comp]
    rfl

/-- C8: at most one child of a node is active at a time — being forwarded
means being unclosed with every earlier sibling closed, and two such
positions coincide — and when one call changes the active child, the
previously active child's channel has closed. -/
theorem C8_single_active_child :
    (∀ (cs : BChildren) (i j : Nat) (ci cj : BNode),
      cs.childAt i = some ci → closedB ci = false →
      (∀ j' c', j' < i → cs.childAt j' = some c' → closedB c' = true) →
      cs.childAt j = some cj → closedB cj = false →
      (∀ j' c', j' < j → cs.childAt j' = some c' → closedB c' = true) →
      i = j) ∧
    (∀ (t : BNode) (ev : Ev) (p : List Nat) (k k' : NodeKind) (e e' fi fi' : Bool)
      (cs cs' : BChildren) (i j : Nat) (ci cj' : BNode),
      getNode p t = some (.comp k e fi cs) →
      getNode p (applyEv t ev) = some (.comp k' e' fi' cs') →
      cs.childAt i = some ci → closedB ci = false →
      (∀ j' c', j' < i → cs.childAt j' = some c' → closedB c' = true) →
      cs'.childAt j = some cj' → closedB cj' = false →
      (∀ j' c', j' < j → cs'.childAt j' = some c' → closedB c' = true) →
      j ≠ i →
      ∃ ci', cs'.childAt i = some ci' ∧ closedB ci' = true) := by
  constructor
  · intro cs i j ci cj hci hciop hbefi hcj hcjop hbefj
    rcases Nat.lt_trichotomy i j with h | h | h
    · exact absurd (hbefj i ci h hci) (by rw [hciop]; exact Bool.false_ne_true)
    · exact h
    · exact absurd (hbefi j cj h hcj) (by rw [hcjop]; exact Bool.false_ne_true)
  · intro t ev p k k' e e' fi fi' cs cs' i j ci cj' hp hp' hci hciop hbefi hcj hcjop hbefj hji
    rcases Nat.lt_trichotomy i j with h | h | h
    · obtain ⟨ci', hci'⟩ := childAt_isSome_of_lt hcj h
      exact ⟨ci', hci', hbefj i ci' h hci'⟩
    · exact absurd h.symm hji
    · obtain ⟨cjold, hcjold⟩ := childAt_isSome_of_lt hci h
      have hclosed : closedB cjold = true := hbefi j cjold h hcjold
      have hpath : getNode (p ++ [j]) t = some cjold := by
        rw [getNode_append, hp]
        show ((cs.childAt j).bind (getNode []) : Option BNode) = some cjold
        rw [hcjold]
        rfl
      obtain ⟨n', hn', hn'c⟩ :=
        getNode_closed_applyAt ev.op (p ++ [j]) ev.path t hpath hclosed
      have : some n' = some cj' := by
        rw [← hn']
        show getNode (p ++ [j]) (applyEv t ev) = some cj'
        rw [getNode_append, hp']
        show ((cs'.childAt j).bind (getNode []) : Option BNode) = some cj'
        rw [hcj]
        rfl
      cases this
      exact absurd hn'c (by rw [hcjop]; exact Bool.false_ne_true)

/-- C8 at a concrete run: in the state with two open-ended properties, the
first open slot (index 2) is the active child; resolving it with a
primitive makes the second slot (index 5) active, and the previously active
child has closed. -/
theorem C8_single_active_child_witness :
    ∃ ci', (childrenAt [0] (applyEv twoSlotState fillFirstSlot)).childAt 2 = some ci' ∧
      closedB ci' = true := by
  refine C8_single_active_child.2 twoSlotState fillFirstSlot [0] .obj .obj false false
    true true (childrenAt [0] twoSlotState)
    (childrenAt [0] (applyEv twoSlotState fillFirstSlot)) 2 5 JsonStreamBuilder.fresh
    JsonStreamBuilder.fresh rfl rfl rfl rfl ?_ rfl rfl ?_ (by decide)
  · intro j' c' hj hc
    match j', hj with
    | 0, _ =>
      rw [show (childrenAt [0] twoSlotState).childAt 0 =
        some (.leaf ['\x7b']) from rfl] at hc
      cases hc
      rfl
    | 1, _ =>
      rw [show (childrenAt [0] twoSlotState).childAt 1 =
        some (.leaf (ObjectStreamBuilder.keyFrag "a")) from rfl] at hc
      cases hc
      rfl
  · intro j' c' hj hc
    match j', hj with
    | 0, _ =>
      rw [show (childrenAt [0] (applyEv twoSlotState fillFirstSlot)).childAt 0 =
        some (.leaf ['\x7b']) from rfl] at hc
      cases hc
      rfl
    | 1, _ =>
      rw [show (childrenAt [0] (applyEv twoSlotState fillFirstSlot)).childAt 1 =
        some (.leaf (ObjectStreamBuilder.keyFrag "a")) from rfl] at hc
      cases hc
      rfl
    | 2, _ =>
      rw [show (childrenAt [0] (applyEv twoSlotState fillFirstSlot)).childAt 2 =
        some (.comp .dispatch true false
          (.cons (.leaf (jsonStringify (.jnum (.int 1)))) .nil)) from rfl] at hc
      cases hc
      rfl
    | 3, _ =>
      rw [show (childrenAt [0] (applyEv twoSlotState fillFirstSlot)).childAt 3 =
        some (.leaf [',']) from rfl] at hc
      cases hc
      rfl
    | 4, _ =>
      rw [show (childrenAt [0] (applyEv twoSlotState fillFirstSlot)).childAt 4 =
        some (.leaf (ObjectStreamBuilder.keyFrag "b")) from rfl] at hc
      cases hc
      rfl

/-- C2: for well-formed executions from the root, the final tree — hence the
final collected text — depends only on each node's own call sequence, not on
how calls to different nodes interleave in time. -/
theorem C2_order_invariance (t1 t2 : List Ev)
    (h1 : okTrace JsonStreamBuilder.fresh t1 = true)
    (h2 : okTrace JsonStreamBuilder.fresh t2 = true)
    (hproj : ∀ p, proj p t1 = proj p t2) :
    applyTrace JsonStreamBuilder.fresh t1 = applyTrace JsonStreamBuilder.fresh t2 ∧
    emitted (applyTrace JsonStreamBuilder.fresh t1) =
      emitted (applyTrace JsonStreamBuilder.fresh t2) := by
  have h := trace_det t1 t2 JsonStreamBuilder.fresh h1 h2 hproj
  exact ⟨h, by rw [h]⟩

/-- C2 at a concrete pair of runs: resolving an open child slot before or
after an inline sibling property yields the same collected text. -/
theorem C2_order_invariance_witness :
    emitted (applyTrace JsonStreamBuilder.fresh interleaveA) =
      emitted (applyTrace JsonStreamBuilder.fresh interleaveB) := by
  refine (C2_order_invariance interleaveA interleaveB (by decide) (by decide) ?_).2
  intro p
  exact proj_swap (by decide) twoSlotPrefix [] p

/-- C1 fails as stated: for the object whose key is one double-quote
character, the one-shot build collects to text that parses back to the
value, but the member-by-member build interpolates the key unescaped
(`pushProperty`'s template literal), producing text the collector cannot
parse — the two collected results differ. -/
theorem C1_roundtrip_counterexample :
    ¬ (jsonParse (emitted (walkBuild quoteKeyValue quoteKeyChoice)) =
        jsonParse (emitted (oneShotBuild quoteKeyValue))) := by
  intro hcon
  rw [show jsonParse (emitted (walkBuild quoteKeyValue quoteKeyChoice)) =
    none from rfl] at hcon
  rw [show jsonParse (emitted (oneShotBuild quoteKeyValue)) =
    some quoteKeyValue from rfl] at hcon
  exact Option.noConfusion hcon

/-- C1 amended: when every object key in the value is unchanged by JSON
string escaping (no quotes, backslashes or control characters), every
decomposition — any mix of one-shot members and open-ended member-by-member
construction — closes its channel with exactly the one-shot text, so
collecting and parsing agree with the one-shot build. -/
theorem C1_roundtrip_decomposition (v : JsonValue) (c : Choice)
    (h : safeKeysV v = true) :
    emitted (walkBuild v c) = emitted (oneShotBuild v) ∧
    closedB (walkBuild v c) = true ∧
    jsonParse (emitted (walkBuild v c)) = jsonParse (emitted (oneShotBuild v)) := by
  have hw := walkV_spec v c h
  have ho := value_fresh_spec v
  have htext : emitted (walkBuild v c) = emitted (oneShotBuild v) := by
    show emitted (walkV v c JsonStreamBuilder.fresh) =
      emitted (JsonStreamBuilder.value v JsonStreamBuilder.fresh)
    rw [hw.2, ho.2]
  exact ⟨htext, hw.1, by rw [htext]⟩

/-- C1 amended, at a concrete input: a nested value with plain keys built
with a mixed decomposition collects to the one-shot text. -/
theorem C1_roundtrip_decomposition_witness :
    safeKeysV (.jobj (.cons "a" (.jnum (.int 1))
        (.cons "s" (.jarr (.cons (.jnum (.int 2)) .nil)) .nil))) = true ∧
    emitted (walkBuild (.jobj (.cons "a" (.jnum (.int 1))
        (.cons "s" (.jarr (.cons (.jnum (.int 2)) .nil)) .nil)))
        (.deep [.inline, .deep [.deep []]])) =
      emitted (oneShotBuild (.jobj (.cons "a" (.jnum (.int 1))
        (.cons "s" (.jarr (.cons (.jnum (.int 2)) .nil)) .nil)))) :=
  ⟨by decide,
   (C1_roundtrip_decomposition
     (.jobj (.cons "a" (.jnum (.int 1))
       (.cons "s" (.jarr (.cons (.jnum (.int 2)) .nil)) .nil)))
     (.deep [.inline, .deep [.deep []]]) (by decide)).1⟩

/-- C6 fails as stated for non-finite numbers: the one-shot call on
`Infinity` completes without raising — `JSON.stringify` serializes the
non-finite number as `null` (ECMA-262) — and the channel closes holding the
literal `null`, which the collector parses to the JSON null, a value
different from the argument: a wrong literal is deferred into the stream. -/
theorem C6_nonfinite_counterexample :
    emitted (oneShotBuild (.jnum .inf)) = "null".data ∧
    closedB (oneShotBuild (.jnum .inf)) = true ∧
    jsonParse (emitted (oneShotBuild (.jnum .inf))) = some JsonValue.null ∧
    JsonValue.null ≠ JsonValue.jnum .inf := by
  refine ⟨rfl, rfl, rfl, ?_⟩
  intro hcon
  exact JsonValue.noConfusion hcon

/-- C6 amended: a one-shot serialization of a non-finite number does not
raise; it encodes the number as the JSON literal `null` which is emitted
into the stream, and the channel closes normally.  (Circular structures,
for which `JSON.stringify` does throw at the call site, are not
representable among the inductive values.) -/
theorem C6_nonfinite_serializes_null (n : JNum) (h : JNum.finite n = false) :
    jsonStringify (.jnum n) = "null".data ∧
    emitted (oneShotBuild (.jnum n)) = "null".data ∧
    closedB (oneShotBuild (.jnum n)) = true := by
  have hs : jsonStringify (.jnum n) = "null".data := by
    cases n with
    | int m => exact absurd h (by rw [show JNum.finite (.int m) = true from rfl]; decide)
    | nan => rfl
    | inf => rfl
    | neginf => rfl
  refine ⟨hs, ?_, rfl⟩
  show emitted (JsonStreamBuilder.value (.jnum n) JsonStreamBuilder.fresh) = "null".data
  rw [(value_fresh_spec (.jnum n)).2, hs]

/-- C6 amended, at `NaN`: the stream holds exactly `null`. -/
theorem C6_nonfinite_serializes_null_witness :
    JNum.finite .nan = false ∧ emitted (oneShotBuild (.jnum .nan)) = "null".data :=
  ⟨rfl, (C6_nonfinite_serializes_null .nan rfl).2.1⟩

/-- C5 at a concrete node: a fresh (never ended) builder's channel is not
closed. -/
theorem C5_closure_iff_witness :
    closedB (.comp .obj false false .nil) = false :=
  (C5_closure_iff .obj false false .nil).2 rfl
